import Mathlib

/-!
Verification development for the state-resolution prototypes in
`src/algos/ts_mainline.py` (the resolver the specification's claims target),
with helper comparisons against the behaviour the specification describes.

Modelling conventions:
* Python dicts are association lists; assignment is `dictSet` (update in
  place, else append), matching Python 3.7+ insertion-order semantics.
* Python sets are modelled by duplicate-free lists.  Wherever the source
  iterates over a set whose iteration order can influence the result
  (the iteration over `full_conflicted_set` when building the power-event
  graph), the embedding takes an explicit `shuffle` parameter standing for
  that iteration order.  Wherever set/dict iteration order provably cannot
  influence the result (per-key loops writing disjoint keys, lists that are
  re-sorted by a key containing the event id), a canonical sorted order is
  used.
* Unbounded Python loops (`while True`, recursion, auth-chain walks) take a
  fuel parameter; exhaustion is the distinguished error `Err.fuelOut`, kept
  apart from Python exceptions (`KeyError` -> `Err.missing`, `ValueError`
  from `int(...)` -> `Err.badInt`, networkx cycle error -> `Err.cycle`).
* The external authorization policy (`synapse.event_auth.check`) is out of
  scope per the specification (§6); the resolver is parameterised by a pure
  `check` function returning `true` for "accepted" and `false` for the
  caught `AuthError`.
-/

namespace StateRes

/-- Event identifiers are opaque strings. -/
abbrev EventId := String

/-- A state key is the pair (type, state_key). -/
abbrev StateKey := String × String

/-- A Python value as found inside `content.users` / `users_default`:
an integer, a string, or JSON null. -/
inductive PValue where
  | int (n : Int)
  | str (s : String)
  | null
deriving DecidableEq, Repr

/-- The parts of an event's `content` that the resolver inspects. -/
structure Content where
  creator : Option String := none
  users : List (String × PValue) := []
  users_default : Option PValue := none
  membership : Option String := none
deriving DecidableEq, Repr

/-- An event record (the fields of `FrozenEvent` that the resolver reads).
`auth_events` keeps only the cited ids, mirroring `for aid, _ in
event.auth_events`. -/
structure Event where
  type : String
  state_key : String
  sender : String
  content : Content
  auth_events : List EventId
  origin_server_ts : Int
deriving DecidableEq, Repr

/-- A state map: association list from (type, state_key) to event id. -/
abbrev StateMap := List (StateKey × EventId)

/-- The event lookup table (`event_map`). -/
abbrev EventMap := List (EventId × Event)

/-- Errors the embedded resolver can signal.  `fuelOut` marks an exhausted
fuel bound (a Python loop that did not terminate within the bound); the
others correspond to Python exceptions escaping the resolver. -/
inductive Err where
  | fuelOut
  | missing (id : EventId)
  | cycle
  | badInt
  | indexError
deriving DecidableEq, Repr

namespace EventTypes

def Create : String := "m.room.create"

def Member : String := "m.room.member"

def PowerLevels : String := "m.room.power_levels"

def JoinRules : String := "m.room.join_rules"

def ThirdPartyInvite : String := "m.room.third_party_invite"

end EventTypes

instance {ε α : Type} [DecidableEq ε] [DecidableEq α] : DecidableEq (Except ε α) := fun x y =>
  match x, y with
  | .ok a, .ok b =>
    if h : a = b then .isTrue (by rw [h]) else .isFalse (by intro he; cases he; exact h rfl)
  | .error a, .error b =>
    if h : a = b then .isTrue (by rw [h]) else .isFalse (by intro he; cases he; exact h rfl)
  | .ok _, .error _ => .isFalse (by intro he; cases he)
  | .error _, .ok _ => .isFalse (by intro he; cases he)

/-- First-match association-list lookup (Python `dict.get`). -/
def lookupA {κ β : Type} [DecidableEq κ] : List (κ × β) → κ → Option β
  | [], _ => none
  | (k, v) :: rest, k' => if k = k' then some v else lookupA rest k'

/-- Python dict assignment `d[k] = v`: update in place if the key is
present (keeping its position), else append. -/
def dictSet {κ β : Type} [DecidableEq κ] : List (κ × β) → κ → β → List (κ × β)
  | [], k, v => [(k, v)]
  | (k', v') :: rest, k, v =>
    if k' = k then (k, v) :: rest else (k', v') :: dictSet rest k v

/-- Python `d.update(u)`: assign every binding of `u` into `d` in order. -/
def dictUpdate {κ β : Type} [DecidableEq κ] (d : List (κ × β)) (u : List (κ × β)) :
    List (κ × β) :=
  u.foldl (fun acc kv => dictSet acc kv.1 kv.2) d

/-- Python `event_map[eid]`: a missing id raises `KeyError`. -/
def look (em : EventMap) (eid : EventId) : Except Err Event :=
  match lookupA em eid with
  | some ev => .ok ev
  | none => .error (.missing eid)

/-- Error-propagating left fold (the shape of the resolver's loops). -/
def foldE {α β : Type} (f : β → α → Except Err β) : β → List α → Except Err β
  | b, [] => .ok b
  | b, a :: l =>
    match f b a with
    | .error e => .error e
    | .ok b' => foldE f b' l

/-- Error-propagating map (left to right, stopping at the first error). -/
def mapE {α β : Type} (f : α → Except Err β) : List α → Except Err (List β)
  | [] => .ok []
  | a :: l =>
    match f a with
    | .error e => .error e
    | .ok b =>
      match mapE f l with
      | .error e => .error e
      | .ok bs => .ok (b :: bs)

/-- Decimal digit value of a character, if it is a digit. -/
def digit? (c : Char) : Option Nat :=
  if '0' ≤ c ∧ c ≤ '9' then some (c.toNat - '0'.toNat) else none

/-- Value of a non-empty all-digit character list, else `none`. -/
def digitsVal (cs : List Char) : Option Nat :=
  if cs = [] then none
  else
    cs.foldl
      (fun acc c =>
        match acc, digit? c with
        | some a, some d => some (a * 10 + d)
        | _, _ => none)
      (some 0)

/-- Model of Python `int(...)` applied to a string: an optional sign
followed by decimal digits parses; anything else raises `ValueError`
(modelled as `none`).  Python's extra accepted forms (surrounding
whitespace, underscores between digits) are not produced by the inputs
considered here. -/
def pyInt? (s : String) : Option Int :=
  match s.toList with
  | [] => none
  | '-' :: rest => (digitsVal rest).map (fun n => -(n : Int))
  | '+' :: rest => (digitsVal rest).map (fun n => (n : Int))
  | cs => (digitsVal cs).map (fun n => (n : Int))

/-- Python `int(...)` on the values the resolver feeds it: integers pass
through, strings are parsed (raising `ValueError` when unparsable), and
`None` is not coercible. -/
def int_of : PValue → Except Err Int
  | .int n => .ok n
  | .str s =>
    match pyInt? s with
    | some n => .ok n
    | none => .error .badInt
  | .null => .error .badInt

/-- Scan of `event.auth_events` for the first auth parent whose event is a
`(m.room.power_levels, "")` state event (ts_mainline.py lines 191-195); each
visited id is looked up and a missing one raises. -/
def findPLParent (em : EventMap) : List EventId → Except Err (Option (EventId × Event))
  | [] => .ok none
  | aid :: rest =>
    match look em aid with
    | .error e => .error e
    | .ok aev =>
      if (aev.type, aev.state_key) = (EventTypes.PowerLevels, "") then .ok (some (aid, aev))
      else findPLParent em rest

/-- Scan of `event.auth_events` for the first `(m.room.create, "")` auth
parent (ts_mainline.py lines 198-203). -/
def findCreateParent (em : EventMap) : List EventId → Except Err (Option (EventId × Event))
  | [] => .ok none
  | aid :: rest =>
    match look em aid with
    | .error e => .error e
    | .ok aev =>
      if (aev.type, aev.state_key) = (EventTypes.Create, "") then .ok (some (aid, aev))
      else findCreateParent em rest

/-- Embedding of `_get_power_level_for_sender` (ts_mainline.py lines
185-213): find the sender's power level from the event's first PowerLevels
auth parent, with the creator special case when there is none. -/
def get_power_level_for_sender (em : EventMap) (event_id : EventId) : Except Err Int :=
  match look em event_id with
  | .error e => .error e
  | .ok event =>
    match findPLParent em event.auth_events with
    | .error e => .error e
    | .ok none =>
      -- no PowerLevels parent: check whether the sender is the room creator
      match findCreateParent em event.auth_events with
      | .error e => .error e
      | .ok (some (_, aev)) =>
        if aev.content.creator = some event.sender then .ok 100 else .ok 0
      | .ok none => .ok 0
    | .ok (some (_, pl)) =>
      -- level = pl.content.get("users", {}).get(event.sender)
      let level0 : Option PValue := lookupA pl.content.users event.sender
      -- if level is None: level = pl.content.get("users_default", 0)
      let level1 : PValue :=
        match level0 with
        | none => pl.content.users_default.getD (.int 0)
        | some .null => pl.content.users_default.getD (.int 0)
        | some v => v
      -- if level is None: return 0 else: return int(level)
      match level1 with
      | .null => .ok 0
      | v => int_of v

/-- Treat a stored JSON null like an absent value (Python's `is None`
test conflates the two when reading power levels). -/
def presentValue : Option PValue → Option PValue
  | none => none
  | some .null => none
  | some v => some v

/-- Definition following the specification's words for `power_of_sender`
(spec §4.4): "Find e's PowerLevels parent in `auth_events` (first such).
If absent: if e has a Create auth parent and that event's content.creator
equals e.sender, return 100; otherwise return 0.  Otherwise lookup
`content.users[e.sender]`; if absent, `content.users_default`; if absent,
0." -/
def power_of_sender_claim (em : EventMap) (event_id : EventId) : Except Err Int :=
  match look em event_id with
  | .error e => .error e
  | .ok event =>
    match findPLParent em event.auth_events with
    | .error e => .error e
    | .ok none =>
      match findCreateParent em event.auth_events with
      | .error e => .error e
      | .ok (some (_, aev)) =>
        if aev.content.creator = some event.sender then .ok 100 else .ok 0
      | .ok none => .ok 0
    | .ok (some (_, pl)) =>
      match (presentValue (lookupA pl.content.users event.sender)).orElse
          (fun _ => presentValue pl.content.users_default) with
      | some v => int_of v
      | none => .ok 0

/-- Byte-wise (code-point-wise) strict lexicographic order on character
lists, written so that the kernel can evaluate it (Python compares event
ids as strings byte by byte). -/
def charListLt : List Char → List Char → Bool
  | [], [] => false
  | [], _ :: _ => true
  | _ :: _, [] => false
  | a :: as, b :: bs => if a = b then charListLt as bs else decide (a.toNat < b.toNat)

/-- Reflexive closure companion of `charListLt`. -/
def charListLe : List Char → List Char → Bool
  | [], _ => true
  | _ :: _, [] => false
  | a :: as, b :: bs => if a = b then charListLe as bs else decide (a.toNat < b.toNat)

theorem char_eq_of_toNat_eq {a b : Char} (h : a.toNat = b.toNat) : a = b :=
  Char.ext (UInt32.toNat.inj h)

theorem charListLe_total : ∀ as bs, charListLe as bs = true ∨ charListLe bs as = true
  | [], _ => Or.inl rfl
  | _ :: _, [] => Or.inr rfl
  | a :: as, b :: bs => by
    by_cases h : a = b
    · subst h
      simpa [charListLe] using charListLe_total as bs
    · have hne : a.toNat ≠ b.toNat := fun hn => h (char_eq_of_toNat_eq hn)
      have hb : b ≠ a := fun hb => h hb.symm
      rcases Nat.lt_or_ge a.toNat b.toNat with hlt | hge
      · simp [charListLe, h, hlt]
      · have : b.toNat < a.toNat := lt_of_le_of_ne hge (Ne.symm hne)
        simp [charListLe, h, hb, this]

theorem charListLe_trans :
    ∀ as bs cs, charListLe as bs = true → charListLe bs cs = true →
      charListLe as cs = true
  | [], _, _, _, _ => rfl
  | a :: as, [], cs, h, _ => by simp [charListLe] at h
  | a :: as, b :: bs, [], _, h => by simp [charListLe] at h
  | a :: as, b :: bs, c :: cs, h1, h2 => by
    by_cases hab : a = b
    · subst hab
      by_cases hac : a = c
      · subst hac
        simp only [charListLe, if_pos rfl] at h1 h2 ⊢
        exact charListLe_trans as bs cs h1 h2
      · simp only [charListLe, if_pos rfl] at h1
        simp only [charListLe, if_neg hac] at h2 ⊢
        exact h2
    · by_cases hbc : b = c
      · subst hbc
        simp only [charListLe, if_neg hab] at h1 ⊢
        exact h1
      · have h1' : a.toNat < b.toNat := by
          simpa [charListLe, hab] using h1
        have h2' : b.toNat < c.toNat := by
          simpa [charListLe, hbc] using h2
        have hac : a ≠ c := by
          intro he
          subst he
          exact Nat.lt_irrefl _ (h1'.trans h2')
        simp [charListLe, hac, h1'.trans h2']

theorem charListLe_antisymm :
    ∀ as bs, charListLe as bs = true → charListLe bs as = true → as = bs
  | [], [], _, _ => rfl
  | [], _ :: _, _, h => by simp [charListLe] at h
  | _ :: _, [], h, _ => by simp [charListLe] at h
  | a :: as, b :: bs, h1, h2 => by
    by_cases hab : a = b
    · subst hab
      simp only [charListLe, if_pos rfl] at h1 h2
      rw [charListLe_antisymm as bs h1 h2]
    · have hba : b ≠ a := fun hb => hab hb.symm
      have h1' : a.toNat < b.toNat := by simpa [charListLe, hab] using h1
      have h2' : b.toNat < a.toNat := by simpa [charListLe, hba] using h2
      exact absurd (h1'.trans h2') (Nat.lt_irrefl _)

theorem charListLt_asymm :
    ∀ as bs, charListLt as bs = true → charListLt bs as = true → False
  | [], [], h, _ => by simp [charListLt] at h
  | [], _ :: _, _, h => by simp [charListLt] at h
  | _ :: _, [], h, _ => by simp [charListLt] at h
  | a :: as, b :: bs, h1, h2 => by
    by_cases hab : a = b
    · subst hab
      simp only [charListLt, if_pos rfl] at h1 h2
      exact charListLt_asymm as bs h1 h2
    · have hba : b ≠ a := fun hb => hab hb.symm
      have h1' : a.toNat < b.toNat := by simpa [charListLt, hab] using h1
      have h2' : b.toNat < a.toNat := by simpa [charListLt, hba] using h2
      exact absurd (h1'.trans h2') (Nat.lt_irrefl _)

theorem charListLt_trans :
    ∀ as bs cs, charListLt as bs = true → charListLt bs cs = true →
      charListLt as cs = true
  | [], [], _, h, _ => by simp [charListLt] at h
  | [], _ :: _, [], _, h => by simp [charListLt] at h
  | [], _ :: _, _ :: _, _, _ => rfl
  | _ :: _, [], _, h, _ => by simp [charListLt] at h
  | _ :: _, _ :: _, [], _, h => by simp [charListLt] at h
  | a :: as, b :: bs, c :: cs, h1, h2 => by
    by_cases hab : a = b
    · subst hab
      by_cases hac : a = c
      · subst hac
        simp only [charListLt, if_pos rfl] at h1 h2 ⊢
        exact charListLt_trans as bs cs h1 h2
      · simp only [charListLt, if_pos rfl] at h1
        simp only [charListLt, if_neg hac] at h2 ⊢
        exact h2
    · by_cases hbc : b = c
      · subst hbc
        simp only [charListLt, if_neg hab] at h1 ⊢
        exact h1
      · have h1' : a.toNat < b.toNat := by simpa [charListLt, hab] using h1
        have h2' : b.toNat < c.toNat := by simpa [charListLt, hbc] using h2
        have hac : a ≠ c := by
          intro he
          subst he
          exact Nat.lt_irrefl _ (h1'.trans h2')
        simp [charListLt, hac, h1'.trans h2']

theorem charListLt_trichotomy :
    ∀ as bs, charListLt as bs = true ∨ charListLt bs as = true ∨ as = bs
  | [], [] => Or.inr (Or.inr rfl)
  | [], _ :: _ => Or.inl rfl
  | _ :: _, [] => Or.inr (Or.inl rfl)
  | a :: as, b :: bs => by
    by_cases hab : a = b
    · subst hab
      rcases charListLt_trichotomy as bs with h | h | h
      · exact Or.inl (by simpa [charListLt] using h)
      · exact Or.inr (Or.inl (by simpa [charListLt] using h))
      · exact Or.inr (Or.inr (by rw [h]))
    · have hba : b ≠ a := fun hb => hab hb.symm
      have hne : a.toNat ≠ b.toNat := fun hn => hab (char_eq_of_toNat_eq hn)
      rcases Nat.lt_or_ge a.toNat b.toNat with hlt | hge
      · exact Or.inl (by simp [charListLt, hab, hlt])
      · have : b.toNat < a.toNat := lt_of_le_of_ne hge (Ne.symm hne)
        exact Or.inr (Or.inl (by simp [charListLt, hba, this]))

theorem charListLt_ne {as bs : List Char} (h : charListLt as bs = true) : as ≠ bs := by
  intro he
  subst he
  induction as with
  | nil => simp [charListLt] at h
  | cons a as ih => exact ih (by simpa [charListLt] using h)

/-- Kernel-evaluable string comparison: `a < b` byte-wise. -/
def strLtb (a b : String) : Bool := charListLt a.toList b.toList

/-- Kernel-evaluable string comparison: `a ≤ b` byte-wise. -/
def strLeb (a b : String) : Bool := charListLe a.toList b.toList

/-- Proposition form of the byte-wise string order. -/
def strLe (a b : String) : Prop := strLeb a b = true

instance : DecidableRel strLe := fun a b => by unfold strLe; infer_instance

theorem string_toList_inj {a b : String} (h : a.toList = b.toList) : a = b := by
  cases a
  cases b
  simp only [String.toList] at h
  exact congrArg String.mk h

instance : IsTotal String strLe :=
  ⟨fun a b => charListLe_total a.toList b.toList⟩

instance : IsTrans String strLe :=
  ⟨fun a b c h1 h2 => charListLe_trans a.toList b.toList c.toList h1 h2⟩

instance : IsAntisymm String strLe :=
  ⟨fun a b h1 h2 => string_toList_inj (charListLe_antisymm a.toList b.toList h1 h2)⟩

/-- Canonical list form of a Python set of event ids: duplicates removed,
sorted ascending.  Used wherever the source iterates a set whose order
cannot influence the result (or whose order is modelled separately by the
`shuffle` parameter). -/
def canonIds (l : List EventId) : List EventId :=
  List.insertionSort strLe l.dedup

/-- Lexicographic order on state keys, giving sets of keys a canonical
iteration order. -/
def skLe (a b : StateKey) : Prop :=
  strLtb a.1 b.1 = true ∨ (a.1 = b.1 ∧ strLeb a.2 b.2 = true)

instance : DecidableRel skLe := fun a b => by unfold skLe; infer_instance

instance : IsTotal StateKey skLe :=
  ⟨fun a b => by
    unfold skLe
    rcases charListLt_trichotomy a.1.toList b.1.toList with h | h | h
    · exact Or.inl (Or.inl h)
    · exact Or.inr (Or.inl h)
    · have he : a.1 = b.1 := string_toList_inj h
      rcases charListLe_total a.2.toList b.2.toList with h2 | h2
      · exact Or.inl (Or.inr ⟨he, h2⟩)
      · exact Or.inr (Or.inr ⟨he.symm, h2⟩)⟩

instance : IsTrans StateKey skLe :=
  ⟨fun a b c hab hbc => by
    unfold skLe strLtb strLeb at *
    rcases hab with h | ⟨h, h2⟩
    · rcases hbc with h' | ⟨h', h2'⟩
      · exact Or.inl (charListLt_trans _ _ _ h h')
      · exact Or.inl (h' ▸ h)
    · rcases hbc with h' | ⟨h', h2'⟩
      · exact Or.inl (h ▸ h')
      · exact Or.inr ⟨h.trans h', charListLe_trans _ _ _ h2 h2'⟩⟩

instance : IsAntisymm StateKey skLe :=
  ⟨fun a b hab hba => by
    unfold skLe strLtb strLeb at *
    rcases hab with h | ⟨h, h2⟩
    · rcases hba with h' | ⟨h', h2'⟩
      · exact absurd (charListLt_asymm _ _ h h') id
      · exact absurd rfl (h' ▸ charListLt_ne h ∘ congrArg String.toList)
    · rcases hba with h' | ⟨h', h2'⟩
      · exact absurd rfl (h ▸ charListLt_ne h' ∘ congrArg String.toList)
      · exact Prod.ext h (string_toList_inj (charListLe_antisymm _ _ h2 h2'))⟩

/-- Canonical list form of a Python set of state keys. -/
def canonKeys (l : List StateKey) : List StateKey :=
  List.insertionSort skLe l.dedup

/-- Distinct values (including absences) that the state sets give a key:
`set(state_set.get(key) for state_set in state_sets)`. -/
def sepVals (ss : List StateMap) (k : StateKey) : List (Option EventId) :=
  (ss.map (fun s => lookupA s k)).dedup

/-- The unconflicted binding a key receives, if any: every state set must
give the key the same single value. -/
def sepUnconfAt (ss : List StateMap) (k : StateKey) : Option (StateKey × EventId) :=
  match sepVals ss k with
  | [v] =>
    match v with
    | some v' => some (k, v')
    | none => none
  | _ => none

/-- The conflicted binding a key receives, if any: the set of non-nil
values when the state sets disagree. -/
def sepConfAt (ss : List StateMap) (k : StateKey) :
    Option (StateKey × List EventId) :=
  match sepVals ss k with
  | [_] => none
  | vals => some (k, canonIds ((vals.filterMap id).filter (fun e => decide (e ≠ ""))))

/-- Embedding of `_seperate` (ts_mainline.py lines 254-269): a key bound
identically by every state set is unconflicted; any other key seen by some
set is conflicted, bound to its set of non-nil values.  The Python
set-iteration over keys is canonicalised (each key is handled
independently, so the iteration order cannot influence the outcome). -/
def seperate (ss : List StateMap) : StateMap × List (StateKey × List EventId) :=
  let keys := canonKeys ((ss.map (fun s => s.map Prod.fst)).flatten)
  (keys.filterMap (sepUnconfAt ss), keys.filterMap (sepConfAt ss))

/-- Auth-relevant state keys seeding the auth-chain closure
(ts_mainline.py lines 222-233). -/
def authRelevantKey (key : StateKey) : Bool :=
  decide (key.1 = EventTypes.Member ∨ key.1 = EventTypes.ThirdPartyInvite ∨
    key = (EventTypes.PowerLevels, "") ∨ key = (EventTypes.Create, "") ∨
    key = (EventTypes.JoinRules, ""))

/-- Seed ids of a state set's auth-chain closure. -/
def seedIds (s : StateMap) : List EventId :=
  canonIds ((s.filter (fun kv => authRelevantKey kv.1)).map Prod.snd)

/-- One pass of the closure loop (ts_mainline.py lines 235-244): iterate a
snapshot of the current set and add every cited auth parent not yet
present.  A missing event raises. -/
def closure_round (em : EventMap) (s : List EventId) : Except Err (List EventId) :=
  foldE
    (fun acc aid =>
      match look em aid with
      | .error e => .error e
      | .ok ev =>
        .ok (ev.auth_events.foldl (fun a x => if x ∈ a then a else a ++ [x]) acc))
    s s

/-- The `while True` saturation loop computing a state set's auth-chain
closure; the fuel bounds the number of passes. -/
def auth_chain_closure (em : EventMap) : Nat → List EventId → Except Err (List EventId)
  | 0, _ => .error .fuelOut
  | fuel + 1, s =>
    match closure_round em s with
    | .error e => .error e
    | .ok s' => if s'.length = s.length then .ok s' else auth_chain_closure em fuel s'

/-- Embedding of `_get_auth_chain_difference` (ts_mainline.py lines
216-251): union of the per-state-set auth-chain closures minus their
intersection. -/
def get_auth_chain_difference (ss : List StateMap) (em : EventMap) (fuel : Nat) :
    Except Err (List EventId) :=
  match mapE (fun s => auth_chain_closure em fuel (seedIds s)) ss with
  | .error e => .error e
  | .ok [] => .error .indexError
  | .ok (s0 :: rest) =>
    let inter := s0.filter (fun x => rest.all (fun s => decide (x ∈ s)))
    let union := canonIds ((s0 :: rest).flatten)
    .ok (union.filter (fun x => decide (x ∉ inter)))

/-- Embedding of `_is_power_event` (ts_mainline.py lines 283-295). -/
def is_power_event (event : Event) : Bool :=
  if (event.type, event.state_key) = (EventTypes.PowerLevels, "") ∨
      (event.type, event.state_key) = (EventTypes.JoinRules, "") ∨
      (event.type, event.state_key) = (EventTypes.Create, "") then true
  else if event.type = EventTypes.Member then
    if event.content.membership = some "leave" ∨
        event.content.membership = some "ban" then
      decide (event.sender ≠ event.state_key)
    else false
  else false

/-- The power-events graph: a networkx `DiGraph` as a node list (insertion
order) plus an edge list. -/
structure PGraph where
  nodes : List EventId
  edges : List (EventId × EventId)
deriving DecidableEq, Repr

def PGraph.addNode (g : PGraph) (n : EventId) : PGraph :=
  if n ∈ g.nodes then g else { g with nodes := g.nodes ++ [n] }

def PGraph.addEdge (g : PGraph) (u v : EventId) : PGraph :=
  let g1 := (g.addNode u).addNode v
  if (u, v) ∈ g1.edges then g1 else { g1 with edges := g1.edges ++ [(u, v)] }

/-- The stack-driven walk of `_add_event_and_auth_chain_to_graph`
(ts_mainline.py lines 310-319).  Note two faithful peculiarities of the
source: the inner loop reads `event_map[event_id].auth_events` (the
top-level event), not the popped `eid`, and an auth parent already present
as a node gets no edge at all. -/
def graph_walk (em : EventMap) (diff : List EventId) (event_id : EventId) :
    Nat → PGraph → List EventId → Except Err PGraph
  | _, g, [] => .ok g
  | 0, _, _ :: _ => .error .fuelOut
  | fuel + 1, g, eid :: rest =>
    match look em event_id with
    | .error e => .error e
    | .ok ev =>
      let step := ev.auth_events.foldl
        (fun gp aid =>
          if aid ∈ diff ∧ aid ∉ gp.1.nodes then (gp.1.addEdge eid aid, aid :: gp.2)
          else gp)
        (g, ([] : List EventId))
      graph_walk em diff event_id fuel step.1 (step.2 ++ rest)

/-- Embedding of `_add_event_and_auth_chain_to_graph`. -/
def add_event_and_auth_chain_to_graph (g : PGraph) (event_id : EventId)
    (em : EventMap) (diff : List EventId) (fuel : Nat) : Except Err PGraph :=
  graph_walk em diff event_id fuel (g.addNode event_id) [event_id]

/-- Building the power-events graph over the full conflicted set
(ts_mainline.py lines 36-41); `confList` is the iteration order of the
Python set `full_conflicted_set`. -/
def build_power_graph (em : EventMap) (diff : List EventId)
    (confList : List EventId) (fuel : Nat) : Except Err PGraph :=
  foldE
    (fun g eid =>
      match look em eid with
      | .error e => .error e
      | .ok ev =>
        if is_power_event ev then add_event_and_auth_chain_to_graph g eid em diff fuel
        else .ok g)
    ⟨[], []⟩ confList

/-- Embedding of `_get_power_order` (ts_mainline.py lines 43-47): the sort
key `(power, -origin_server_ts, event_id)`. -/
def get_power_order (em : EventMap) (event_id : EventId) :
    Except Err (Int × Int × EventId) :=
  match look em event_id with
  | .error e => .error e
  | .ok ev =>
    match get_power_level_for_sender em event_id with
    | .error e => .error e
    | .ok pl => .ok (pl, -ev.origin_server_ts, event_id)

/-- Strict lexicographic comparison of power-order keys (Python tuple
comparison). -/
def keyLt (a b : Int × Int × EventId) : Bool :=
  decide (a.1 < b.1 ∨
    (a.1 = b.1 ∧ (a.2.1 < b.2.1 ∨ (a.2.1 = b.2.1 ∧ strLtb a.2.2 b.2.2 = true))))

/-- Minimum-key node among a non-empty candidate list. -/
def pick_min (x : EventId × (Int × Int × EventId))
    (l : List (EventId × (Int × Int × EventId))) : EventId × (Int × Int × EventId) :=
  l.foldl (fun best c => if keyLt c.2 best.2 then c else best) x

theorem pick_min_mem (l : List (EventId × (Int × Int × EventId)))
    (x : EventId × (Int × Int × EventId)) : pick_min x l ∈ x :: l := by
  induction l generalizing x with
  | nil => simp [pick_min]
  | cons c cs ih =>
    have h := ih (if keyLt c.2 x.2 then c else x)
    rcases List.mem_cons.1 h with h' | h'
    · by_cases hk : keyLt c.2 x.2
      · simp only [pick_min, List.foldl_cons] at *
        rw [h']
        simp [hk]
      · simp only [pick_min, List.foldl_cons] at *
        rw [h']
        simp [hk]
    · simp only [pick_min, List.foldl_cons]
      exact List.mem_cons_of_mem _ (List.mem_cons_of_mem _ h')

/-- Kahn's algorithm with minimal-key selection: the semantics of
`networkx.algorithms.dag.lexicographical_topological_sort`.  At each step
the key-minimal node with no incoming edge from the remaining nodes is
emitted; if none exists while nodes remain, the graph has a cycle.  The
fuel is initialised to the node count, which always suffices since every
step removes one node. -/
def lex_topo_go (edges : List (EventId × EventId)) :
    Nat → List (EventId × (Int × Int × EventId)) → Except Err (List EventId)
  | _, [] => .ok []
  | 0, _ :: _ => .error .fuelOut
  | fuel + 1, n :: ns =>
    match (n :: ns).filter
        (fun nk => !(edges.any (fun e => decide (e.2 = nk.1) &&
          (n :: ns).any (fun m => decide (m.1 = e.1))))) with
    | [] => .error .cycle
    | c :: cs =>
      match lex_topo_go edges fuel ((n :: ns).erase (pick_min c cs)) with
      | .error e => .error e
      | .ok tail => .ok ((pick_min c cs).1 :: tail)

/-- Embedding of the lexicographic topological sort call (ts_mainline.py
lines 49-53): compute each node's key, then run Kahn's algorithm with
minimal-key selection.  The keys are computed upfront rather than lazily
as networkx does; on inputs where both a cycle and a key error occur this
can surface a different error value, but emission on success is
identical. -/
def lexicographical_topological_sort (em : EventMap) (g : PGraph) :
    Except Err (List EventId) :=
  match mapE
      (fun n =>
        match get_power_order em n with
        | .error e => .error e
        | .ok k => .ok (n, k))
      g.nodes with
  | .error e => .error e
  | .ok keyed => lex_topo_go g.edges keyed.length keyed

/-- The inner override loop (`for key, eid in overridden_state.items():
auth_events[key] = event_map[eid]`): assign every running-state binding
into the table. -/
def apply_overrides (em : EventMap) (overridden : StateMap)
    (t : List (StateKey × Event)) : Except Err (List (StateKey × Event)) :=
  foldE
    (fun t kv =>
      match look em kv.2 with
      | .error e => .error e
      | .ok oev => .ok (dictSet t kv.1 oev))
    t overridden

/-- One step of the table-building loop: bind the auth parent's key, then
re-run the override loop (which is nested inside the parent loop in the
source). -/
def build_auth_step (em : EventMap) (overridden : StateMap)
    (table : List (StateKey × Event)) (aid : EventId) :
    Except Err (List (StateKey × Event)) :=
  match look em aid with
  | .error e => .error e
  | .ok aev => apply_overrides em overridden (dictSet table (aev.type, aev.state_key) aev)

/-- One step binding only the auth parent (no overrides). -/
def parents_step (em : EventMap) (table : List (StateKey × Event))
    (aid : EventId) : Except Err (List (StateKey × Event)) :=
  match look em aid with
  | .error e => .error e
  | .ok aev => .ok (dictSet table (aev.type, aev.state_key) aev)

/-- The table of cited auth parents alone: bind (a.type, a.state_key) → a
for each cited auth parent a, later parents overwriting earlier ones. -/
def parents_table (em : EventMap) (auth_ids : List EventId) :
    Except Err (List (StateKey × Event)) :=
  foldE (parents_step em) [] auth_ids

/-- The auth-event table handed to the policy for one event
(ts_mainline.py lines 63-68): bindings of the cited auth parents, with the
running-state overrides re-applied after every parent (the override loop is
nested inside the parent loop in the source). -/
def build_auth_events (em : EventMap) (auth_ids : List EventId)
    (overridden : StateMap) : Except Err (List (StateKey × Event)) :=
  foldE (build_auth_step em overridden) [] auth_ids

/-- One iterative-auth pass (ts_mainline.py lines 59-81 and 144-164):
check each event against its auth table, record the verdict, and on
success bind the event's key in the running overridden state. -/
def auth_pass (check : Event → List (StateKey × Event) → Bool) (em : EventMap) :
    List EventId → StateMap → List (EventId × Bool) →
    Except Err (StateMap × List (EventId × Bool))
  | [], ov, auth => .ok (ov, auth)
  | eid :: rest, ov, auth =>
    match look em eid with
    | .error e => .error e
    | .ok event =>
      match build_auth_events em event.auth_events ov with
      | .error e => .error e
      | .ok table =>
        let allowed := check event table
        let ov' :=
          if allowed then dictSet ov (event.type, event.state_key) eid else ov
        auth_pass check em rest ov' (dictSet auth eid allowed)

/-- Per-key conflict selection (ts_mainline.py lines 87-99 and 166-178):
for each conflicted key, among its candidates in the given order, pick the
latest that passed auth; if none passed, the key is left unresolved.
The keys are written independently, so the dict iteration order is
canonical. -/
def select_conflicts (conflicted : List (StateKey × List EventId))
    (order : List EventId) (auth : List (EventId × Bool))
    (resolved : StateMap) : StateMap :=
  conflicted.foldl
    (fun res kc =>
      let sorted_conflicts := (order.filter (fun e => decide (e ∈ kc.2))).reverse
      match sorted_conflicts.find? (fun e => (lookupA auth e).getD false) with
      | some eid => dictSet res kc.1 eid
      | none => res)
    resolved

/-- The backwards mainline walk (ts_mainline.py lines 104-114): follow the
first PowerLevels auth parent from the resolved power-levels event; the
returned list has the resolved event first.  Python's `while pl:` treats
the empty string as false. -/
def mainline_walk (em : EventMap) :
    Nat → Option EventId → List EventId → Except Err (List EventId)
  | _, none, acc => .ok acc
  | fuel, some p, acc =>
    if p = "" then .ok acc
    else
      match fuel with
      | 0 => .error .fuelOut
      | fuel' + 1 =>
        match look em p with
        | .error e => .error e
        | .ok ev =>
          match findPLParent em ev.auth_events with
          | .error e => .error e
          | .ok (some (aid, _)) => mainline_walk em fuel' (some aid) (acc ++ [p])
          | .ok none => mainline_walk em fuel' none (acc ++ [p])

/-- Embedding of `get_mainline_depth` (ts_mainline.py lines 120-133): the
mainline index when on the mainline, otherwise 0 for events with no auth
parents, otherwise the maximum of all auth parents' depths (Python's
`max(...)` over the recursive calls, evaluated left to right). -/
def get_mainline_depth (mm : List (EventId × Nat)) (em : EventMap) :
    Nat → EventId → Except Err Nat
  | 0, _ => .error .fuelOut
  | fuel + 1, event_id =>
    match lookupA mm event_id with
    | some i => .ok i
    | none =>
      match look em event_id with
      | .error e => .error e
      | .ok ev =>
        match ev.auth_events with
        | [] => .ok 0
        | parents =>
          foldE
            (fun acc aid =>
              match get_mainline_depth mm em fuel aid with
              | .error e => .error e
              | .ok d => .ok (Nat.max acc d))
            0 parents

/-- Depth of a leftover event, defaulting as the source's dict lookup. -/
def dkey (depths : List (EventId × Nat)) (e : EventId) : Nat :=
  (lookupA depths e).getD 0

/-- Ascending order on the sort key `(depth, event_id)` used for leftover
events (ts_mainline.py line 142). -/
def leftoverLe (depths : List (EventId × Nat)) (a b : EventId) : Prop :=
  dkey depths a < dkey depths b ∨ (dkey depths a = dkey depths b ∧ strLe a b)

instance (depths : List (EventId × Nat)) : DecidableRel (leftoverLe depths) :=
  fun a b => by unfold leftoverLe; infer_instance

instance (depths : List (EventId × Nat)) : IsTotal EventId (leftoverLe depths) :=
  ⟨fun a b => by
    unfold leftoverLe
    rcases Nat.lt_trichotomy (dkey depths a) (dkey depths b) with h | h | h
    · exact Or.inl (Or.inl h)
    · rcases total_of strLe a b with h2 | h2
      · exact Or.inl (Or.inr ⟨h, h2⟩)
      · exact Or.inr (Or.inr ⟨h.symm, h2⟩)
    · exact Or.inr (Or.inl h)⟩

instance (depths : List (EventId × Nat)) : IsTrans EventId (leftoverLe depths) :=
  ⟨fun a b c hab hbc => by
    unfold leftoverLe at *
    rcases hab with h | ⟨h, h2⟩
    · rcases hbc with h' | ⟨h', h2'⟩
      · exact Or.inl (h.trans h')
      · exact Or.inl (h' ▸ h)
    · rcases hbc with h' | ⟨h', h2'⟩
      · exact Or.inl (h ▸ h')
      · exact Or.inr ⟨h.trans h', trans_of strLe h2 h2'⟩⟩

instance (depths : List (EventId × Nat)) : IsAntisymm EventId (leftoverLe depths) :=
  ⟨fun a b hab hba => by
    unfold leftoverLe at *
    rcases hab with h | ⟨h, h2⟩
    · rcases hba with h' | ⟨h', h2'⟩
      · exact absurd (h.trans h') (Nat.lt_irrefl _)
      · exact absurd h (h' ▸ Nat.lt_irrefl _)
    · rcases hba with h' | ⟨h', h2'⟩
      · exact absurd h' (h ▸ Nat.lt_irrefl _)
      · exact antisymm_of strLe h2 h2'⟩

/-- The leftover sort `leftover_events.sort(key=lambda ev_id:
(leftover_events_map[ev_id], ev_id))`: note the key has no timestamp. -/
def sort_leftover_events (depths : List (EventId × Nat)) (l : List EventId) :
    List EventId :=
  List.insertionSort (leftoverLe depths) l

/-- The full conflicted set (conflicted values plus the auth diff),
canonicalised; the Python set-iteration order over it is supplied by the
resolver's `shuffle` parameter. -/
def full_conflicted_list (conflicted : List (StateKey × List EventId))
    (diff : List EventId) : List EventId :=
  canonIds ((conflicted.map Prod.snd).flatten ++ diff)

/-- The power-ordering phase of the resolver (ts_mainline.py lines 36-54):
graph construction, lexicographic topological sort with key
`(power, -ts, id)`, and reversal of the emitted list. -/
def sorted_power_from_parts (shuffle : List EventId → List EventId)
    (em : EventMap) (fuel : Nat) (conflicted : List (StateKey × List EventId))
    (diff : List EventId) : Except Err (List EventId) :=
  match build_power_graph em diff (shuffle (full_conflicted_list conflicted diff)) fuel with
  | .error e => .error e
  | .ok g =>
    match lexicographical_topological_sort em g with
    | .error e => .error e
    | .ok topo => .ok topo.reverse

/-- The resolver after separation and auth-chain difference: power phase,
first auth pass and selection, mainline construction, leftover sort,
second auth pass and selection, and the final reassertion of the
unconflicted state. -/
def resolver_rest (check : Event → List (StateKey × Event) → Bool)
    (shuffle : List EventId → List EventId) (em : EventMap) (fuel : Nat)
    (unconflicted : StateMap) (conflicted : List (StateKey × List EventId))
    (diff : List EventId) : Except Err StateMap :=
  match sorted_power_from_parts shuffle em fuel conflicted diff with
  | .error e => .error e
  | .ok sorted_power_events =>
    match auth_pass check em sorted_power_events [] [] with
    | .error e => .error e
    | .ok (ov1, auth1) =>
      let resolved1 := select_conflicts conflicted sorted_power_events auth1 []
      let resolved1u := dictUpdate resolved1 unconflicted
      match mainline_walk em fuel (lookupA resolved1u (EventTypes.PowerLevels, "")) [] with
      | .error e => .error e
      | .ok mlrev =>
        let mainline_map := mlrev.reverse.enum.map (fun p => (p.2, p.1 + 1))
        let leftover_ids :=
          (shuffle (full_conflicted_list conflicted diff)).filter
            (fun e => decide (e ∉ sorted_power_events))
        match mapE
            (fun e =>
              match get_mainline_depth mainline_map em fuel e with
              | .error er => .error er
              | .ok d => .ok (e, d))
            leftover_ids with
        | .error e => .error e
        | .ok depths =>
          let leftover_events := sort_leftover_events depths leftover_ids
          match auth_pass check em leftover_events ov1 auth1 with
          | .error e => .error e
          | .ok (_, auth2) =>
            let resolved2 := select_conflicts conflicted leftover_events auth2 resolved1u
            .ok (dictUpdate resolved2 unconflicted)

/-- Embedding of `resolver` (ts_mainline.py lines 12-182), parameterised by
the external authorization policy `check` and by the iteration order
`shuffle` of the Python set `full_conflicted_set`. -/
def resolver (check : Event → List (StateKey × Event) → Bool)
    (shuffle : List EventId → List EventId) (state_sets : List StateMap)
    (em : EventMap) (fuel : Nat) : Except Err StateMap :=
  let uc := seperate state_sets
  match get_auth_chain_difference state_sets em fuel with
  | .error e => .error e
  | .ok auth_diff => resolver_rest check shuffle em fuel uc.1 uc.2 auth_diff

/-- Helper: the two readings of the power-level extraction agree. -/
theorem level_extract_eq (pl : Event) (sender : String) :
    (match (match lookupA pl.content.users sender with
            | none => pl.content.users_default.getD (.int 0)
            | some .null => pl.content.users_default.getD (.int 0)
            | some v => v : PValue) with
     | .null => Except.ok (0 : Int)
     | v => int_of v) =
    (match (presentValue (lookupA pl.content.users sender)).orElse
        (fun _ => presentValue pl.content.users_default) with
     | some v => int_of v
     | none => Except.ok (0 : Int)) := by
  cases hu : lookupA pl.content.users sender with
  | none =>
    cases hd : pl.content.users_default with
    | none => simp [presentValue, Option.getD, Option.orElse, int_of]
    | some v =>
      cases v <;> simp [presentValue, Option.getD, Option.orElse, int_of]
  | some v =>
    cases v with
    | null =>
      cases hd : pl.content.users_default with
      | none => simp [presentValue, Option.getD, Option.orElse, int_of]
      | some v' =>
        cases v' <;> simp [presentValue, Option.getD, Option.orElse, int_of]
    | int n => simp [presentValue, Option.orElse]
    | str s => simp [presentValue, Option.orElse]

/-- C9: the sender-power function `_get_power_level_for_sender` of
ts_mainline.py computes exactly what the claim describes: with no
PowerLevels auth parent it returns 100 for the creator (per the first
Create auth parent) and 0 otherwise; with a PowerLevels auth parent (the
first such) it returns the integer value of `content.users[sender]`,
falling back to `content.users_default`, falling back to 0. -/
theorem c9_power_of_sender_spec (em : EventMap) (event_id : EventId) :
    get_power_level_for_sender em event_id = power_of_sender_claim em event_id := by
  unfold get_power_level_for_sender power_of_sender_claim
  cases hl : look em event_id with
  | error e => rfl
  | ok event =>
    dsimp only
    cases hp : findPLParent em event.auth_events with
    | error e => rfl
    | ok o =>
      cases o with
      | none => rfl
      | some p => exact level_extract_eq p.2 event.sender

/-- Concrete event map for the malformed-power-levels scenario: event `E8`
cites a PowerLevels auth parent whose `users` entry for `E8`'s sender is the
non-numeric string "abc". -/
def emC8 : EventMap :=
  [("PL1",
    { type := EventTypes.PowerLevels, state_key := "", sender := "a",
      content := { users := [("u", .str "abc")] },
      auth_events := [], origin_server_ts := 0 }),
   ("E8",
    { type := "m.room.topic", state_key := "", sender := "u",
      content := {}, auth_events := ["PL1"], origin_server_ts := 0 })]

/-- C8 counterexample: on `E8`, whose PowerLevels parent carries the
non-coercible `users` value "abc", the sender-power computation raises
(Python `int("abc")` raises `ValueError`) instead of treating the value as
0 silently. -/
theorem c8_counterexample :
    get_power_level_for_sender emC8 "E8" = .error .badInt := by decide

/-- C8 amended: a `users` value that does not parse as an integer makes the
sender-power computation raise an uncaught error (`int(...)` raising
`ValueError`), rather than being silently coerced to 0; resolution can
therefore fail on malformed power-level content. -/
theorem c8_amended (em : EventMap) (event_id : EventId) (event : Event)
    (aid : EventId) (pl : Event) (s : String)
    (hl : look em event_id = .ok event)
    (hp : findPLParent em event.auth_events = .ok (some (aid, pl)))
    (hu : lookupA pl.content.users event.sender = some (.str s))
    (hs : pyInt? s = none) :
    get_power_level_for_sender em event_id = .error .badInt := by
  unfold get_power_level_for_sender
  rw [hl]
  dsimp only
  rw [hp]
  dsimp only
  rw [hu]
  simp [int_of, hs]

/-- Witness for `c8_amended` at the concrete event map `emC8`. -/
theorem c8_amended_witness :
    get_power_level_for_sender emC8 "E8" = .error .badInt :=
  c8_amended emC8 "E8"
    { type := "m.room.topic", state_key := "", sender := "u",
      content := {}, auth_events := ["PL1"], origin_server_ts := 0 }
    "PL1"
    { type := EventTypes.PowerLevels, state_key := "", sender := "a",
      content := { users := [("u", .str "abc")] },
      auth_events := [], origin_server_ts := 0 }
    "abc" (by decide) (by decide) (by decide) (by decide)

/-!
Claim-following reference definitions: these follow the specification's
words, to be compared with the embeddings above.
-/

/-- Timestamp of an event (total function used by the claim-following
leftover sort). -/
def tsOf (em : EventMap) (e : EventId) : Int :=
  match lookupA em e with
  | some ev => ev.origin_server_ts
  | none => 0

/-- Ordering the specification claims for the mainline sorter: ascending
`(mainline depth, origin_server_ts, event_id)`. -/
def leftoverLeClaim (em : EventMap) (depths : List (EventId × Nat))
    (a b : EventId) : Prop :=
  dkey depths a < dkey depths b ∨
  (dkey depths a = dkey depths b ∧
    (tsOf em a < tsOf em b ∨ (tsOf em a = tsOf em b ∧ strLe a b)))

instance (em : EventMap) (depths : List (EventId × Nat)) :
    DecidableRel (leftoverLeClaim em depths) :=
  fun a b => by unfold leftoverLeClaim; infer_instance

/-- Leftover sort as the specification describes it (spec §4.6), with the
timestamp in the key. -/
def sort_leftover_events_claim (em : EventMap) (depths : List (EventId × Nat))
    (l : List EventId) : List EventId :=
  List.insertionSort (leftoverLeClaim em depths) l

/-- Mainline depth as the claim describes it: the mainline index when on
the mainline, otherwise the depth of the PowerLevels auth parent plus one
when such a parent exists, otherwise 0. -/
def mainline_depth_claim (mm : List (EventId × Nat)) (em : EventMap) :
    Nat → EventId → Except Err Nat
  | 0, _ => .error .fuelOut
  | fuel + 1, event_id =>
    match lookupA mm event_id with
    | some i => .ok i
    | none =>
      match look em event_id with
      | .error e => .error e
      | .ok ev =>
        match findPLParent em ev.auth_events with
        | .error e => .error e
        | .ok (some (aid, _)) =>
          match mainline_depth_claim mm em fuel aid with
          | .error e => .error e
          | .ok d => .ok (d + 1)
        | .ok none => .ok 0

/-- Auth-event table as the claim describes it: bind every cited auth
parent, then overwrite exactly those keys of `AuthTypeKeys(e)` (the
injected `atk` policy function) that the running state binds. -/
def build_auth_events_claim (atk : Event → List StateKey) (em : EventMap)
    (event : Event) (overridden : StateMap) :
    Except Err (List (StateKey × Event)) :=
  match parents_table em event.auth_events with
  | .error e => .error e
  | .ok table =>
    foldE
      (fun t k =>
        match lookupA overridden k with
        | some eid =>
          match look em eid with
          | .error e => .error e
          | .ok oev => .ok (dictSet t k oev)
        | none => .ok t)
      table (atk event)

/-!
Concrete scenarios for the counterexamples and evaluations.
-/

/-- A join-rules state event (a power event) with the given timestamp and
auth parents. -/
def jrEvent (ts : Int) (parents : List EventId) : Event :=
  { type := EventTypes.JoinRules, state_key := "", sender := "u",
    content := {}, auth_events := parents, origin_server_ts := ts }

/-- A topic state event (not a power event) with the given timestamp and
auth parents. -/
def topicEvent (ts : Int) (parents : List EventId) : Event :=
  { type := "m.room.topic", state_key := "", sender := "u",
    content := {}, auth_events := parents, origin_server_ts := ts }

/-- Authorization policy accepting every event. -/
def checkTrue : Event → List (StateKey × Event) → Bool := fun _ _ => true

/-- Authorization policy rejecting every event. -/
def checkFalse : Event → List (StateKey × Event) → Bool := fun _ _ => false

/-- Set-iteration order: the canonical order itself. -/
def shuffleId : List EventId → List EventId := fun l => l

/-- Set-iteration order: the canonical order reversed (a permutation, as
any Python set-iteration order is). -/
def shuffleRev : List EventId → List EventId := fun l => l.reverse

/-- Two independent join-rules power events with equal sender power and
equal timestamps. -/
def emC1 : EventMap := [("A", jrEvent 100 []), ("B", jrEvent 100 [])]

/-- Two state sets conflicting on the join-rules key. -/
def ssC1 : List StateMap :=
  [[((EventTypes.JoinRules, ""), "A")], [((EventTypes.JoinRules, ""), "B")]]

/-- C1: evaluating the power-ordering phase on two independent power
events with equal sender power (0) and equal timestamps yields the list
["B", "A"]: the event ids are emitted in descending order, contradicting
the claimed ascending (−power, ts, id) order (the source's FIXME at
ts_mainline.py line 46 acknowledges the inverted id tiebreak). -/
theorem c1_power_order_eval :
    (match get_auth_chain_difference ssC1 emC1 10 with
     | .error e => Except.error e
     | .ok d => sorted_power_from_parts shuffleId emC1 10 (seperate ssC1).2 d) =
    .ok ["B", "A"] := by decide

/-- Two conflicting topic events with no auth parents. -/
def emC2 : EventMap := [("X1", topicEvent 0 []), ("X2", topicEvent 0 [])]

/-- Two state sets conflicting on the topic key. -/
def ssC2 : List StateMap :=
  [[(("m.room.topic", ""), "X1")], [(("m.room.topic", ""), "X2")]]

/-- C2: when every candidate of a conflicted key fails the authorization
re-check, ts_mainline's resolver returns a state map without that key: the
output is empty although the topic key occurs in both inputs (the
source's own comment at lines 85-86 promises "falling back to the first
one if none passed auth", which the code does not implement). -/
theorem c2_dropped_key_eval :
    resolver checkFalse shuffleId ssC2 emC2 10 = .ok [] ∧
    ("m.room.topic", "") ∈ ((ssC2.map (fun s => s.map Prod.fst)).flatten) := by
  decide

/-- Depth map giving both leftover candidates depth 0. -/
def dC3 : List (EventId × Nat) := [("A", 0), ("B", 0)]

/-- Event map where "A" is newer than "B". -/
def emC3 : EventMap := [("A", topicEvent 200 []), ("B", topicEvent 100 [])]

/-- C3 counterexample: with equal depths, event "A" (ts 200) and event
"B" (ts 100), the source sorts by (depth, id) to ["A", "B"], while the
claimed (depth, ts, id) key would give ["B", "A"]; the timestamp is not
part of the code's key. -/
theorem c3_counterexample :
    sort_leftover_events dC3 ["A", "B"] = ["A", "B"] ∧
    sort_leftover_events_claim emC3 dC3 ["A", "B"] = ["B", "A"] ∧
    sort_leftover_events dC3 ["A", "B"] ≠
      sort_leftover_events_claim emC3 dC3 ["A", "B"] := by decide

/-- Event map for the depth counterexample: "E" cites the PowerLevels
event "P" which sits on the mainline at index 1. -/
def emC4 : EventMap :=
  [("P", { type := EventTypes.PowerLevels, state_key := "", sender := "a",
           content := {}, auth_events := [], origin_server_ts := 0 }),
   ("E", topicEvent 0 ["P"])]

/-- C4 counterexample: for event "E" with PowerLevels auth parent "P" of
mainline index 1, the source computes depth 1 (the maximum over all
parents, with no increment), while the claimed "depth of the PowerLevels
parent plus 1" would give 2. -/
theorem c4_counterexample :
    get_mainline_depth [("P", 1)] emC4 5 "E" = .ok 1 ∧
    mainline_depth_claim [("P", 1)] emC4 5 "E" = .ok 2 ∧
    get_mainline_depth [("P", 1)] emC4 5 "E" ≠
      mainline_depth_claim [("P", 1)] emC4 5 "E" := by decide

/-- A PowerLevels event used as running-state binding. -/
def plEventC5 : Event :=
  { type := EventTypes.PowerLevels, state_key := "", sender := "a",
    content := {}, auth_events := [], origin_server_ts := 0 }

/-- Event map binding "P" for the auth-table counterexample. -/
def emC5 : EventMap := [("P", plEventC5)]

/-- An event citing no auth parents. -/
def eC5 : Event := topicEvent 0 []

/-- Running state binding the power-levels key. -/
def ovC5 : StateMap := [((EventTypes.PowerLevels, ""), "P")]

/-- AuthTypeKeys policy declaring the power-levels key authoritative. -/
def atkC5 : Event → List StateKey := fun _ => [(EventTypes.PowerLevels, "")]

/-- C5 counterexample: for an event citing no auth parents while the
running state binds the power-levels key (declared authoritative by
AuthTypeKeys), the source builds an empty auth table — the override loop
is nested inside the (empty) parent loop — while the claim's table binds
the running-state event. -/
theorem c5_counterexample :
    build_auth_events emC5 eC5.auth_events ovC5 = .ok [] ∧
    build_auth_events_claim atkC5 emC5 eC5 ovC5 =
      .ok [((EventTypes.PowerLevels, ""), plEventC5)] := by decide

/-- Three join-rules power events; "B" cites "A" as auth parent. -/
def emC7 : EventMap :=
  [("A", jrEvent 100 []), ("B", jrEvent 100 ["A"]), ("C", jrEvent 100 [])]

/-- Three state sets conflicting on the join-rules key. -/
def ssC7 : List StateMap :=
  [[((EventTypes.JoinRules, ""), "A")], [((EventTypes.JoinRules, ""), "B")],
   [((EventTypes.JoinRules, ""), "C")]]

/-- C7 counterexample: with an accept-all policy, iterating the Python set
`full_conflicted_set` in canonical order versus reversed order (both valid
set-iteration orders) yields different resolved state: the graph builder's
"`aid` not already a node" guard makes the edge set depend on the
iteration order. -/
theorem c7_counterexample :
    resolver checkTrue shuffleId ssC7 emC7 20 ≠
      resolver checkTrue shuffleRev ssC7 emC7 20 := by decide

/-!
Amended claims and their proofs.
-/

/-- Pointwise-equal functions give equal `mapE` results. -/
theorem mapE_congr {α β : Type} {f g : α → Except Err β}
    (h : ∀ a, f a = g a) : ∀ l, mapE f l = mapE g l
  | [] => rfl
  | a :: l => by
    simp only [mapE, h a, mapE_congr h l]

/-- A fold of error-propagating maxima equals mapping then folding. -/
theorem foldE_max_eq_mapE (f : EventId → Except Err Nat) :
    ∀ (l : List EventId) (acc : Nat),
      foldE
        (fun acc aid =>
          match f aid with
          | .error e => .error e
          | .ok d => .ok (Nat.max acc d))
        acc l =
      (match mapE f l with
       | .error e => .error e
       | .ok ds => .ok (ds.foldl Nat.max acc))
  | [], acc => rfl
  | a :: l, acc => by
    simp only [foldE, mapE]
    cases f a with
    | error e => rfl
    | ok d =>
      dsimp only
      rw [foldE_max_eq_mapE f l (Nat.max acc d)]
      cases mapE f l with
      | error e => rfl
      | ok ds => rfl

/-- The amended depth function, written as the amended claim reads: the
mainline index when on the mainline, otherwise 0 when the event cites no
auth parents, otherwise the maximum of the depths of all cited auth
parents, with no increment. -/
def mainline_depth_amended (mm : List (EventId × Nat)) (em : EventMap) :
    Nat → EventId → Except Err Nat
  | 0, _ => .error .fuelOut
  | fuel + 1, event_id =>
    match lookupA mm event_id with
    | some i => .ok i
    | none =>
      match look em event_id with
      | .error e => .error e
      | .ok ev =>
        match ev.auth_events with
        | [] => .ok 0
        | parents =>
          match mapE (mainline_depth_amended mm em fuel) parents with
          | .error e => .error e
          | .ok ds => .ok (ds.foldl Nat.max 0)

/-- C4 amended: the mainline-depth function returns the event's mainline
index if present in the mainline map; otherwise 0 when the event cites no
auth parents; otherwise the maximum of the depths of all of its auth
parents (there is no PowerLevels filter and no increment). -/
theorem c4_amended_depth (mm : List (EventId × Nat)) (em : EventMap) :
    ∀ (fuel : Nat) (event_id : EventId),
      get_mainline_depth mm em fuel event_id =
        mainline_depth_amended mm em fuel event_id
  | 0, _ => rfl
  | fuel + 1, event_id => by
    simp only [get_mainline_depth, mainline_depth_amended]
    cases lookupA mm event_id with
    | some i => rfl
    | none =>
      dsimp only
      cases look em event_id with
      | error e => rfl
      | ok ev =>
        dsimp only
        cases hp : ev.auth_events with
        | nil => rfl
        | cons p ps =>
          dsimp only
          rw [foldE_max_eq_mapE (get_mainline_depth mm em fuel) (p :: ps) 0,
            mapE_congr (fun a => c4_amended_depth mm em fuel a) (p :: ps)]

/-- With an empty mainline map, every successful depth computation gives
0 (helper for the amended C3). -/
theorem gmd_empty_eq_zero (em : EventMap) :
    ∀ (fuel : Nat) (eid : EventId) (d : Nat),
      get_mainline_depth [] em fuel eid = .ok d → d = 0 := by
  intro fuel
  induction fuel with
  | zero => intro eid d h; cases h
  | succ fuel ih =>
    intro eid d h
    simp only [get_mainline_depth, lookupA] at h
    cases hl : look em eid with
    | error e => rw [hl] at h; cases h
    | ok ev =>
      rw [hl] at h
      dsimp only at h
      cases hp : ev.auth_events with
      | nil =>
        rw [hp] at h
        cases h
        rfl
      | cons p ps =>
        rw [hp] at h
        dsimp only at h
        have hfold : ∀ (l : List EventId) (acc d' : Nat), acc = 0 →
            foldE
              (fun acc aid =>
                match get_mainline_depth [] em fuel aid with
                | .error e => .error e
                | .ok d => .ok (Nat.max acc d))
              acc l = .ok d' → d' = 0 := by
          intro l
          induction l with
          | nil =>
            intro acc d' hacc hh
            cases hh
            exact hacc
          | cons a l ihl =>
            intro acc d' hacc hh
            simp only [foldE] at hh
            cases hg : get_mainline_depth [] em fuel a with
            | error e => rw [hg] at hh; cases hh
            | ok da =>
              rw [hg] at hh
              dsimp only at hh
              have hda : da = 0 := ih a da hg
              exact ihl (Nat.max acc da) d' (by simp [hacc, hda]) hh
        exact hfold (p :: ps) 0 d rfl h

/-- C3 amended: the leftover sorter orders events ascending by the key
(mainline depth, event_id) — the timestamp is not consulted — and when the
resolved PowerLevels id is absent (empty mainline map) every successful
depth computation yields 0, so the order degenerates to ascending
event_id. -/
theorem c3_amended_sort (depths : List (EventId × Nat)) (l : List EventId) :
    (sort_leftover_events depths l).Perm l ∧
    (sort_leftover_events depths l).Sorted (leftoverLe depths) ∧
    (∀ (em : EventMap) (fuel : Nat) (eid : EventId) (d : Nat),
      get_mainline_depth [] em fuel eid = .ok d → d = 0) :=
  ⟨List.perm_insertionSort _ l,
   List.sorted_insertionSort _ l,
   fun em fuel eid d h => gmd_empty_eq_zero em fuel eid d h⟩

/-- Witness for `c3_amended_sort` at a concrete input. -/
theorem c3_amended_sort_witness :
    (sort_leftover_events dC3 ["A", "B"]).Perm ["A", "B"] ∧ (0 : Nat) = 0 :=
  ⟨(c3_amended_sort dC3 ["A", "B"]).1,
   (c3_amended_sort dC3 ["A", "B"]).2.2 emC3 5 "A" 0 (by decide)⟩

theorem lookupA_dictSet_self {κ β : Type} [DecidableEq κ] :
    ∀ (d : List (κ × β)) (k : κ) (v : β), lookupA (dictSet d k v) k = some v
  | [], k, v => by simp [dictSet, lookupA]
  | (k', v') :: d, k, v => by
    simp only [dictSet]
    by_cases h : k' = k
    · subst h
      simp [lookupA]
    · simp only [if_neg h, lookupA, if_neg h]
      exact lookupA_dictSet_self d k v

theorem lookupA_dictSet_ne {κ β : Type} [DecidableEq κ] :
    ∀ (d : List (κ × β)) (k : κ) (v : β) (k' : κ), k ≠ k' →
      lookupA (dictSet d k v) k' = lookupA d k'
  | [], k, v, k', h => by simp [dictSet, lookupA, h]
  | (a, b) :: d, k, v, k', h => by
    simp only [dictSet]
    by_cases ha : a = k
    · subst ha
      simp [lookupA, h]
    · by_cases ha' : a = k'
      · subst ha'
        simp [ha, lookupA]
      · simp only [if_neg ha, lookupA, if_neg ha']
        exact lookupA_dictSet_ne d k v k' h

/-- Effect of the override loop on the table: every running-state key ends
bound to its running-state event, keys outside are untouched. -/
theorem apply_overrides_spec (em : EventMap) :
    ∀ (ov : StateMap) (t t' : List (StateKey × Event)),
      (ov.map Prod.fst).Nodup →
      apply_overrides em ov t = .ok t' →
      ((∀ kv ∈ ov, ∃ oev, look em kv.2 = .ok oev ∧ lookupA t' kv.1 = some oev) ∧
       (∀ k, k ∉ ov.map Prod.fst → lookupA t' k = lookupA t k))
  | [], t, t', _, h => by
    cases h
    exact ⟨by simp, fun k _ => rfl⟩
  | kv :: ov, t, t', hnd, h => by
    simp only [apply_overrides, foldE] at h
    cases hlk : look em kv.2 with
    | error e => rw [hlk] at h; cases h
    | ok oev =>
      rw [hlk] at h
      dsimp only at h
      have hnd' : (ov.map Prod.fst).Nodup := by
        simpa using (List.nodup_cons.1 (by simpa using hnd)).2
      have hknotin : kv.1 ∉ ov.map Prod.fst := by
        exact (List.nodup_cons.1 (by simpa using hnd)).1
      obtain ⟨h1, h2⟩ := apply_overrides_spec em ov (dictSet t kv.1 oev) t' hnd' h
      refine ⟨?_, ?_⟩
      · intro kv' hkv'
        rcases List.mem_cons.1 hkv' with he | hm
        · rw [he]
          exact ⟨oev, hlk, by rw [h2 kv.1 hknotin, lookupA_dictSet_self]⟩
        · exact h1 kv' hm
      · intro k hk
        have hk1 : k ∉ ov.map Prod.fst := by
          intro hc
          exact hk (by simp [hc])
        have hkne : kv.1 ≠ k := by
          intro hc
          exact hk (by simp [hc])
        rw [h2 k hk1, lookupA_dictSet_ne _ _ _ _ hkne]

/-- Relation between the source's table fold and the parents-only fold:
outside the running-state keys the two tables agree, and after at least
one parent step every running-state key is bound to its running-state
event. -/
theorem build_parents_rel (em : EventMap) (ov : StateMap)
    (hnd : (ov.map Prod.fst).Nodup) :
    ∀ (ids : List EventId) (t0 p0 t : List (StateKey × Event)),
      (∀ k, k ∉ ov.map Prod.fst → lookupA t0 k = lookupA p0 k) →
      foldE (build_auth_step em ov) t0 ids = .ok t →
      ∃ pt, foldE (parents_step em) p0 ids = .ok pt ∧
        (∀ k, k ∉ ov.map Prod.fst → lookupA t k = lookupA pt k) ∧
        ((∀ kv ∈ ov, ∃ oev, look em kv.2 = .ok oev ∧ lookupA t0 kv.1 = some oev) →
          (∀ kv ∈ ov, ∃ oev, look em kv.2 = .ok oev ∧ lookupA t kv.1 = some oev)) ∧
        (ids ≠ [] →
          (∀ kv ∈ ov, ∃ oev, look em kv.2 = .ok oev ∧ lookupA t kv.1 = some oev))
  | [], t0, p0, t, hinv, h => by
    cases h
    exact ⟨p0, rfl, hinv, fun hp => hp, fun hne => absurd rfl hne⟩
  | aid :: ids, t0, p0, t, hinv, h => by
    simp only [foldE, build_auth_step] at h
    cases hlk : look em aid with
    | error e => rw [hlk] at h; cases h
    | ok aev =>
      rw [hlk] at h
      dsimp only at h
      cases happ : apply_overrides em ov (dictSet t0 (aev.type, aev.state_key) aev) with
      | error e => rw [happ] at h; cases h
      | ok t1 =>
        rw [happ] at h
        dsimp only at h
        obtain ⟨hov1, hov2⟩ := apply_overrides_spec em ov _ t1 hnd happ
        have hinv1 : ∀ k, k ∉ ov.map Prod.fst →
            lookupA t1 k = lookupA (dictSet p0 (aev.type, aev.state_key) aev) k := by
          intro k hk
          rw [hov2 k hk]
          by_cases hke : (aev.type, aev.state_key) = k
          · rw [hke, lookupA_dictSet_self, lookupA_dictSet_self]
          · rw [lookupA_dictSet_ne _ _ _ _ hke, lookupA_dictSet_ne _ _ _ _ hke,
              hinv k hk]
        obtain ⟨pt, hpt, hINV, hpres, _⟩ :=
          build_parents_rel em ov hnd ids t1
            (dictSet p0 (aev.type, aev.state_key) aev) t hinv1 h
        have hOVP : ∀ kv ∈ ov, ∃ oev, look em kv.2 = .ok oev ∧
            lookupA t kv.1 = some oev := hpres hov1
        refine ⟨pt, ?_, hINV, fun _ => hOVP, fun _ => hOVP⟩
        simp only [foldE, parents_step, hlk]
        exact hpt

/-- C5 amended: the auth-event table the iterative-auth pass hands to the
policy is empty when the event cites no auth parents (the override loop is
nested inside the parent loop, so it never runs); otherwise it equals the
cited-parent bindings overwritten by the running state at EVERY key the
running state binds — not just those in AuthTypeKeys(e), which the source
never consults. -/
theorem c5_amended_table (em : EventMap) (ov : StateMap)
    (hnd : (ov.map Prod.fst).Nodup) :
    build_auth_events em [] ov = .ok [] ∧
    (∀ (a : EventId) (ids : List EventId) (t : List (StateKey × Event)),
      build_auth_events em (a :: ids) ov = .ok t →
      ∃ pt, parents_table em (a :: ids) = .ok pt ∧
        (∀ kv ∈ ov, ∃ oev, look em kv.2 = .ok oev ∧ lookupA t kv.1 = some oev) ∧
        (∀ k, k ∉ ov.map Prod.fst → lookupA t k = lookupA pt k)) := by
  refine ⟨rfl, ?_⟩
  intro a ids t h
  obtain ⟨pt, hpt, hINV, _, hne⟩ :=
    build_parents_rel em ov hnd (a :: ids) [] [] t (fun _ _ => rfl) h
  exact ⟨pt, hpt, hne (by simp), hINV⟩

/-- Witness for `c5_amended_table` at a concrete running state. -/
theorem c5_amended_table_witness : build_auth_events emC5 [] ovC5 = .ok [] :=
  (c5_amended_table emC5 ovC5 (by decide)).1

/-- A successful resolver run ends by reasserting the unconflicted state:
the output is `dictUpdate r unconflicted` for some intermediate map `r`
(ts_mainline.py line 180). -/
theorem resolver_ok_shape (check : Event → List (StateKey × Event) → Bool)
    (shuffle : List EventId → List EventId) (ss : List StateMap)
    (em : EventMap) (fuel : Nat) (out : StateMap)
    (h : resolver check shuffle ss em fuel = .ok out) :
    ∃ r, out = dictUpdate r (seperate ss).1 := by
  unfold resolver at h
  cases hd : get_auth_chain_difference ss em fuel with
  | error e => rw [hd] at h; cases h
  | ok d =>
    rw [hd] at h
    dsimp only at h
    unfold resolver_rest at h
    cases h1 : sorted_power_from_parts shuffle em fuel (seperate ss).2 d with
    | error e => rw [h1] at h; cases h
    | ok spe =>
      rw [h1] at h
      dsimp only at h
      cases h2 : auth_pass check em spe [] [] with
      | error e => rw [h2] at h; cases h
      | ok p1 =>
        rw [h2] at h
        obtain ⟨ov1, auth1⟩ := p1
        dsimp only at h
        cases h3 : mainline_walk em fuel
            (lookupA (dictUpdate (select_conflicts (seperate ss).2 spe auth1 [])
              (seperate ss).1) (EventTypes.PowerLevels, "")) [] with
        | error e => rw [h3] at h; cases h
        | ok mlrev =>
          rw [h3] at h
          dsimp only at h
          cases h4 : mapE
              (fun e =>
                match get_mainline_depth (mlrev.reverse.enum.map (fun p => (p.2, p.1 + 1)))
                    em fuel e with
                | .error er => .error er
                | .ok dd => .ok (e, dd))
              ((shuffle (full_conflicted_list (seperate ss).2 d)).filter
                (fun e => decide (e ∉ spe))) with
          | error e => rw [h4] at h; cases h
          | ok depths =>
            rw [h4] at h
            dsimp only at h
            cases h5 : auth_pass check em
                (sort_leftover_events depths
                  ((shuffle (full_conflicted_list (seperate ss).2 d)).filter
                    (fun e => decide (e ∉ spe)))) ov1 auth1 with
            | error e => rw [h5] at h; cases h
            | ok p2 =>
              rw [h5] at h
              obtain ⟨ov2, auth2⟩ := p2
              dsimp only at h
              exact ⟨_, (Except.ok.inj h).symm⟩

/-- A key that an association list binds occurs among its keys. -/
theorem mem_keys_of_lookupA {κ β : Type} [DecidableEq κ] :
    ∀ (s : List (κ × β)) (k : κ) (v : β), lookupA s k = some v → k ∈ s.map Prod.fst
  | [], _, _, h => by cases h
  | (k0, v0) :: s, k, v, h => by
    simp only [lookupA] at h
    by_cases he : k0 = k
    · simp [he]
    · rw [if_neg he] at h
      exact List.mem_cons_of_mem _ (mem_keys_of_lookupA s k v h)

/-- A non-empty list of identical elements dedups to the singleton. -/
theorem dedup_const {α : Type} [DecidableEq α] :
    ∀ (l : List α) (x : α), l ≠ [] → (∀ y ∈ l, y = x) → l.dedup = [x]
  | [], x, hne, _ => absurd rfl hne
  | [y], x, _, hall => by
    rw [hall y (by simp)]
    rfl
  | y :: z :: l, x, _, hall => by
    have hy : y = x := hall y (by simp)
    have hrest : (z :: l).dedup = [x] :=
      dedup_const (z :: l) x (by simp) (fun w hw => hall w (List.mem_cons_of_mem _ hw))
    have hmem : y ∈ z :: l := by
      have : x ∈ (z :: l).dedup := by rw [hrest]; simp
      rw [hy]
      exact List.mem_dedup.1 this
    rw [List.dedup_cons_of_mem hmem]
    exact hrest

/-- Lookup in a filtered-map of keys, when the produced pair keeps its key
and the key's image is present. -/
theorem lookupA_filterMap_of_mem {β : Type} (f : StateKey → Option (StateKey × β))
    (hf : ∀ k p, f k = some p → p.1 = k) :
    ∀ (keys : List StateKey) (k : StateKey) (v : β), k ∈ keys → f k = some (k, v) →
      lookupA (keys.filterMap f) k = some v
  | [], k, v, hm, _ => by cases hm
  | k0 :: keys, k, v, hm, hfk => by
    by_cases he : k0 = k
    · subst he
      simp [List.filterMap_cons, hfk, lookupA]
    · rcases List.mem_cons.1 hm with he' | hm'
      · exact absurd he'.symm he
      · cases hf0 : f k0 with
        | none =>
          simp only [List.filterMap_cons, hf0]
          exact lookupA_filterMap_of_mem f hf keys k v hm' hfk
        | some p =>
          have hp1 : p.1 = k0 := hf k0 p hf0 ▸ rfl
          simp only [List.filterMap_cons, hf0, lookupA]
          rw [if_neg (by rw [hf k0 p hf0]; exact he)]
          exact lookupA_filterMap_of_mem f hf keys k v hm' hfk

/-- Keys of a key-preserving filterMap come from the source keys. -/
theorem mem_of_mem_filterMap_keys {β : Type} (f : StateKey → Option (StateKey × β))
    (hf : ∀ k p, f k = some p → p.1 = k) :
    ∀ (keys : List StateKey) (x : StateKey),
      x ∈ (keys.filterMap f).map Prod.fst → x ∈ keys
  | [], x, h => by simp [List.filterMap] at h
  | k0 :: keys, x, h => by
    cases hf0 : f k0 with
    | none =>
      rw [List.filterMap_cons, hf0] at h
      exact List.mem_cons_of_mem _ (mem_of_mem_filterMap_keys f hf keys x h)
    | some p =>
      rw [List.filterMap_cons, hf0] at h
      simp only [List.map_cons, List.mem_cons] at h
      rcases h with he | hm
      · rw [he, hf k0 p hf0]
        simp
      · exact List.mem_cons_of_mem _ (mem_of_mem_filterMap_keys f hf keys x hm)

/-- A key-preserving filterMap of duplicate-free keys has duplicate-free
keys. -/
theorem filterMap_keys_nodup {β : Type} (f : StateKey → Option (StateKey × β))
    (hf : ∀ k p, f k = some p → p.1 = k) :
    ∀ (keys : List StateKey), keys.Nodup → ((keys.filterMap f).map Prod.fst).Nodup
  | [], _ => by simp [List.filterMap]
  | k0 :: keys, hnd => by
    obtain ⟨hk0, hnd'⟩ := List.nodup_cons.1 hnd
    cases hf0 : f k0 with
    | none =>
      rw [List.filterMap_cons, hf0]
      exact filterMap_keys_nodup f hf keys hnd'
    | some p =>
      rw [List.filterMap_cons, hf0, List.map_cons, List.nodup_cons]
      refine ⟨?_, filterMap_keys_nodup f hf keys hnd'⟩
      intro hc
      rw [hf k0 p hf0] at hc
      exact hk0 (mem_of_mem_filterMap_keys f hf keys k0 hc)

theorem canonKeys_nodup (l : List StateKey) : (canonKeys l).Nodup :=
  ((List.perm_insertionSort skLe l.dedup).nodup_iff).2 l.nodup_dedup

theorem mem_canonKeys {l : List StateKey} {k : StateKey} (h : k ∈ l) :
    k ∈ canonKeys l :=
  ((List.perm_insertionSort skLe l.dedup).mem_iff).2 (List.mem_dedup.2 h)

/-- The separator binds an everywhere-agreed key to the agreed event id in
the unconflicted output. -/
theorem seperate_unconflicted_mem (ss : List StateMap) (k : StateKey) (v : EventId)
    (hne : ss ≠ []) (hall : ∀ s ∈ ss, lookupA s k = some v) :
    lookupA (seperate ss).1 k = some v := by
  obtain ⟨s0, ss', rfl⟩ : ∃ s0 ss', ss = s0 :: ss' := by
    cases ss with
    | nil => exact absurd rfl hne
    | cons a l => exact ⟨a, l, rfl⟩
  have hkmem : k ∈ ((s0 :: ss').map (fun s => s.map Prod.fst)).flatten := by
    apply List.mem_flatten.2
    exact ⟨s0.map Prod.fst, by simp, mem_keys_of_lookupA s0 k v (hall s0 (by simp))⟩
  have hvals : sepVals (s0 :: ss') k = [some v] := by
    unfold sepVals
    apply dedup_const
    · simp
    · intro y hy
      obtain ⟨s, hs, rfl⟩ := List.mem_map.1 hy
      exact hall s hs
  unfold seperate
  apply lookupA_filterMap_of_mem
  · intro k' p hp
    unfold sepUnconfAt at hp
    cases hv : sepVals (s0 :: ss') k' with
    | nil => rw [hv] at hp; cases hp
    | cons a l =>
      rw [hv] at hp
      cases a with
      | none =>
        cases l with
        | nil => cases hp
        | cons b l2 => cases hp; try rfl
      | some w =>
        cases l with
        | nil => cases hp; try rfl
        | cons b l2 => cases hp; try rfl
  · exact mem_canonKeys hkmem
  · unfold sepUnconfAt
    rw [hvals]

/-- Keys of the unconflicted output are duplicate-free. -/
theorem seperate_unconf_keys_nodup (ss : List StateMap) :
    (((seperate ss).1).map Prod.fst).Nodup := by
  unfold seperate
  apply filterMap_keys_nodup
  · intro k p hp
    unfold sepUnconfAt at hp
    cases hv : sepVals ss k with
    | nil => rw [hv] at hp; cases hp
    | cons a l =>
      rw [hv] at hp
      cases a with
      | none =>
        cases l with
        | nil => cases hp
        | cons b l2 => cases hp; try rfl
      | some w =>
        cases l with
        | nil => cases hp; try rfl
        | cons b l2 => cases hp; try rfl
  · exact canonKeys_nodup _

theorem dictUpdate_cons {κ β : Type} [DecidableEq κ] (r : List (κ × β))
    (kv : κ × β) (u : List (κ × β)) :
    dictUpdate r (kv :: u) = dictUpdate (dictSet r kv.1 kv.2) u := rfl

/-- Updating with bindings that avoid a key leaves its lookup unchanged. -/
theorem lookupA_dictUpdate_not_mem {κ β : Type} [DecidableEq κ] :
    ∀ (u : List (κ × β)) (r : List (κ × β)) (k : κ), k ∉ u.map Prod.fst →
      lookupA (dictUpdate r u) k = lookupA r k
  | [], _, _, _ => rfl
  | kv :: u, r, k, hni => by
    rw [dictUpdate_cons]
    have h1 : k ∉ u.map Prod.fst := fun hc => hni (List.mem_cons_of_mem _ hc)
    have h2 : kv.1 ≠ k := fun hc => hni (by simp [hc])
    rw [lookupA_dictUpdate_not_mem u _ k h1]
    exact lookupA_dictSet_ne _ _ _ _ h2

/-- Lookup after `dictUpdate` is the updating map's binding when its keys
are duplicate-free. -/
theorem lookupA_dictUpdate_of_nodup {κ β : Type} [DecidableEq κ] :
    ∀ (u : List (κ × β)) (r : List (κ × β)) (k : κ) (v : β),
      lookupA u k = some v → (u.map Prod.fst).Nodup →
      lookupA (dictUpdate r u) k = some v
  | [], r, k, v, hu, _ => by cases hu
  | (k0, v0) :: u, r, k, v, hu, hnd => by
    obtain ⟨hk0, hnd'⟩ := List.nodup_cons.1 (by simpa only [List.map_cons] using hnd)
    by_cases he : k0 = k
    · subst he
      have hv : v0 = v := by
        simpa [lookupA] using hu
      subst hv
      rw [dictUpdate_cons, lookupA_dictUpdate_not_mem u _ k0 hk0]
      exact lookupA_dictSet_self r k0 v0
    · have hu' : lookupA u k = some v := by
        simpa [lookupA, if_neg he] using hu
      rw [dictUpdate_cons]
      exact lookupA_dictUpdate_of_nodup u (dictSet r k0 v0) k v hu' hnd'

/-- C6: for every input on which the resolver succeeds and every key bound
by every input state map to the same event id, the output binds that key
to that id (ts_mainline.py line 180 reasserts the unconflicted state
last). -/
theorem c6_unconflicted_preserved (check : Event → List (StateKey × Event) → Bool)
    (shuffle : List EventId → List EventId) (ss : List StateMap) (em : EventMap)
    (fuel : Nat) (k : StateKey) (v : EventId) (out : StateMap)
    (hne : ss ≠ [])
    (hall : ∀ s ∈ ss, lookupA s k = some v)
    (h : resolver check shuffle ss em fuel = .ok out) :
    lookupA out k = some v := by
  obtain ⟨r, hr⟩ := resolver_ok_shape check shuffle ss em fuel out h
  rw [hr]
  exact lookupA_dictUpdate_of_nodup (seperate ss).1 r k v
    (seperate_unconflicted_mem ss k v hne hall)
    (seperate_unconf_keys_nodup ss)

/-- State sets agreeing on the topic key. -/
def ssC6 : List StateMap :=
  [[(("m.room.topic", ""), "E")], [(("m.room.topic", ""), "E")]]

/-- Witness for `c6_unconflicted_preserved` at a concrete agreed input. -/
theorem c6_unconflicted_preserved_witness :
    lookupA [((("m.room.topic" : String), ("" : String)), ("E" : EventId))]
      ("m.room.topic", "") = some "E" :=
  c6_unconflicted_preserved checkTrue shuffleId ssC6 [] 5
    ("m.room.topic", "") "E" [((("m.room.topic" : String), ""), "E")]
    (by decide) (by decide) (by decide)

theorem canonIds_perm_eq {l1 l2 : List EventId} (h : l1.Perm l2) :
    canonIds l1 = canonIds l2 :=
  List.eq_of_perm_of_sorted
    ((List.perm_insertionSort strLe l1.dedup).trans
      (h.dedup.trans (List.perm_insertionSort strLe l2.dedup).symm))
    (List.sorted_insertionSort strLe _) (List.sorted_insertionSort strLe _)

theorem canonKeys_perm_eq {l1 l2 : List StateKey} (h : l1.Perm l2) :
    canonKeys l1 = canonKeys l2 :=
  List.eq_of_perm_of_sorted
    ((List.perm_insertionSort skLe l1.dedup).trans
      (h.dedup.trans (List.perm_insertionSort skLe l2.dedup).symm))
    (List.sorted_insertionSort skLe _) (List.sorted_insertionSort skLe _)

/-- Per-key separation depends only on the multiset of state sets. -/
theorem sepAt_perm {ss ss' : List StateMap} (h : ss.Perm ss') (k : StateKey) :
    sepUnconfAt ss k = sepUnconfAt ss' k ∧ sepConfAt ss k = sepConfAt ss' k := by
  have hp : (sepVals ss k).Perm (sepVals ss' k) := (h.map _).dedup
  unfold sepUnconfAt sepConfAt
  rcases hv : sepVals ss k with _ | ⟨a, _ | ⟨b, t⟩⟩ <;>
    rcases hv' : sepVals ss' k with _ | ⟨a', _ | ⟨b', t'⟩⟩ <;>
      rw [hv, hv'] at hp
  · exact ⟨rfl, rfl⟩
  · exact absurd hp.length_eq (by simp)
  · exact absurd hp.length_eq (by simp)
  · exact absurd hp.length_eq (by simp)
  · have ha : a = a' := by
      have := List.perm_singleton.1 hp
      injection this with h1 _
    subst ha
    cases a <;> exact ⟨rfl, rfl⟩
  · exact absurd hp.length_eq (by simp)
  · exact absurd hp.length_eq (by simp)
  · exact absurd hp.length_eq (by simp)
  · have hc : canonIds (((a :: b :: t).filterMap id).filter (fun e => decide (e ≠ ""))) =
        canonIds (((a' :: b' :: t').filterMap id).filter (fun e => decide (e ≠ ""))) :=
      canonIds_perm_eq ((hp.filterMap id).filter _)
    refine ⟨rfl, ?_⟩
    dsimp only
    rw [hc]

/-- The separator is a function of the multiset of state sets. -/
theorem seperate_perm {ss ss' : List StateMap} (h : ss.Perm ss') :
    seperate ss = seperate ss' := by
  unfold seperate
  have hkeys : canonKeys ((ss.map (fun s => s.map Prod.fst)).flatten) =
      canonKeys ((ss'.map (fun s => s.map Prod.fst)).flatten) :=
    canonKeys_perm_eq (h.map _).flatten
  rw [hkeys]
  exact Prod.ext
    (List.filterMap_congr (fun k _ => (sepAt_perm h k).1))
    (List.filterMap_congr (fun k _ => (sepAt_perm h k).2))

/-- Success of `mapE` transports along permutations of the input. -/
theorem mapE_perm {α β : Type} (f : α → Except Err β) {l l' : List α}
    (h : l.Perm l') :
    ∀ {r : List β}, mapE f l = .ok r → ∃ r', mapE f l' = .ok r' ∧ r.Perm r' := by
  induction h with
  | nil =>
    intro r hr
    cases hr
    exact ⟨[], rfl, List.Perm.refl _⟩
  | @cons x l1 l2 hl ih =>
    intro r hr
    simp only [mapE] at hr ⊢
    cases hfx : f x with
    | error e => rw [hfx] at hr; cases hr
    | ok b =>
      rw [hfx] at hr
      dsimp only at hr
      cases hml : mapE f l1 with
      | error e => rw [hml] at hr; cases hr
      | ok rs =>
        rw [hml] at hr
        cases hr
        obtain ⟨rs', hml', hp⟩ := ih hml
        rw [hml']
        exact ⟨b :: rs', rfl, hp.cons b⟩
  | swap x y l =>
    intro r hr
    simp only [mapE] at hr ⊢
    cases hfy : f y with
    | error e => rw [hfy] at hr; cases hr
    | ok by' =>
      rw [hfy] at hr
      dsimp only at hr
      cases hfx : f x with
      | error e => rw [hfx] at hr; cases hr
      | ok bx =>
        rw [hfx] at hr
        dsimp only at hr
        cases hml : mapE f l with
        | error e => rw [hml] at hr; cases hr
        | ok rs =>
          rw [hml] at hr
          cases hr
          exact ⟨bx :: by' :: rs, rfl, List.Perm.swap _ _ _⟩
  | trans h1 h2 ih1 ih2 =>
    intro r hr
    obtain ⟨r1, hr1, hp1⟩ := ih1 hr
    obtain ⟨r2, hr2, hp2⟩ := ih2 hr1
    exact ⟨r2, hr2, hp1.trans hp2⟩

/-- Membership in the embedded intersection means membership in every
auth-chain closure. -/
theorem mem_inter_char (s0 : List EventId) (rest : List (List EventId))
    (x : EventId) :
    x ∈ s0.filter (fun x => rest.all (fun s => decide (x ∈ s))) ↔
      ∀ s ∈ s0 :: rest, x ∈ s := by
  simp only [List.mem_filter, List.all_eq_true, decide_eq_true_eq, List.mem_cons]
  constructor
  · rintro ⟨h0, hr⟩ s hs
    rcases hs with rfl | hs
    · exact h0
    · exact hr s hs
  · intro h
    exact ⟨h s0 (Or.inl rfl), fun s hs => h s (Or.inr hs)⟩

/-- A successful auth-chain difference transports along permutations of
the state sets, with the same resulting list. -/
theorem diff_perm {ss ss' : List StateMap} (h : ss.Perm ss') (em : EventMap)
    (fuel : Nat) {d : List EventId}
    (hd : get_auth_chain_difference ss em fuel = .ok d) :
    get_auth_chain_difference ss' em fuel = .ok d := by
  unfold get_auth_chain_difference at hd ⊢
  cases hm : mapE (fun s => auth_chain_closure em fuel (seedIds s)) ss with
  | error e => rw [hm] at hd; cases hd
  | ok l =>
    rw [hm] at hd
    obtain ⟨l', hm', hpl⟩ := mapE_perm _ h hm
    rw [hm']
    cases l with
    | nil => cases hd
    | cons s0 rest =>
      cases l' with
      | nil => exact absurd hpl.length_eq (by simp)
      | cons s0' rest' =>
        dsimp only at hd ⊢
        have hunion : canonIds ((s0 :: rest).flatten) =
            canonIds ((s0' :: rest').flatten) :=
          canonIds_perm_eq hpl.flatten
        have hfilter :
            (canonIds ((s0' :: rest').flatten)).filter
              (fun x => decide (x ∉ s0'.filter (fun x =>
                rest'.all (fun s => decide (x ∈ s))))) =
            (canonIds ((s0 :: rest).flatten)).filter
              (fun x => decide (x ∉ s0.filter (fun x =>
                rest.all (fun s => decide (x ∈ s))))) := by
          rw [← hunion]
          apply List.filter_congr
          intro x _
          have hiff : (x ∈ s0'.filter (fun x =>
              rest'.all (fun s => decide (x ∈ s)))) ↔
              (x ∈ s0.filter (fun x => rest.all (fun s => decide (x ∈ s)))) := by
            rw [mem_inter_char, mem_inter_char]
            constructor
            · intro hall s hs
              exact hall s (hpl.mem_iff.1 hs)
            · intro hall s hs
              exact hall s (hpl.mem_iff.2 hs)
          exact decide_eq_decide.2 (not_congr hiff)
        rw [hfilter]
        exact hd

/-- C7 amended: with the iteration order of the conflicted set fixed, the
resolver's successful outputs are invariant under permutation of the
state_sets list.  (The iteration order itself is NOT immaterial: see the
counterexample, where two orders give different outputs, because the graph
builder's node guard makes the edge set order-dependent.) -/
theorem c7_perm_invariant (check : Event → List (StateKey × Event) → Bool)
    (shuffle : List EventId → List EventId) (ss ss' : List StateMap)
    (em : EventMap) (fuel : Nat) (out : StateMap)
    (hperm : ss.Perm ss')
    (h : resolver check shuffle ss em fuel = .ok out) :
    resolver check shuffle ss' em fuel = .ok out := by
  unfold resolver at h ⊢
  cases hd : get_auth_chain_difference ss em fuel with
  | error e => rw [hd] at h; cases h
  | ok d =>
    rw [hd] at h
    rw [diff_perm hperm em fuel hd]
    dsimp only at h ⊢
    rw [← seperate_perm hperm]
    exact h

/-- The two conflicting-topic state sets, swapped. -/
def ssC2swap : List StateMap :=
  [[(("m.room.topic", ""), "X2")], [(("m.room.topic", ""), "X1")]]

/-- Witness for `c7_perm_invariant` at a concrete permuted input. -/
theorem c7_perm_invariant_witness :
    resolver checkTrue shuffleId ssC2swap emC2 10 =
      .ok [((("m.room.topic" : String), ""), "X2")] :=
  c7_perm_invariant checkTrue shuffleId ssC2 ssC2swap emC2 10
    [((("m.room.topic" : String), ""), "X2")] (by decide) (by decide)

/-!
Termination (claim C10): under an acyclicity witness for the auth-events
relation — a rank function strictly decreasing along cited auth parents —
and enough fuel, the resolver never exhausts its fuel: every fuel-bounded
loop of the embedding completes (possibly with a Python-exception error,
which is still termination).
-/

theorem error_ne_fuelOut {α : Type} {e : Err} (h : e ≠ .fuelOut) :
    (Except.error e : Except Err α) ≠ .error .fuelOut := by
  intro hc
  injection hc with h'
  exact h h'

theorem ne_fuelOut_of_ok {α : Type} {a : α} :
    (Except.ok a : Except Err α) ≠ .error .fuelOut := by
  intro hc
  cases hc

/-- Error payload of a non-fuelOut computation. -/
theorem err_of_ne_fuelOut {α : Type} {e : Err}
    (h : (Except.error e : Except Err α) ≠ .error .fuelOut) : e ≠ .fuelOut := by
  intro hc
  exact h (by rw [hc])

theorem foldE_nofuel {α β : Type} {f : β → α → Except Err β} :
    ∀ {l : List α} {b : β}, (∀ b' a, a ∈ l → f b' a ≠ .error .fuelOut) →
      foldE f b l ≠ .error .fuelOut
  | [], b, _ => ne_fuelOut_of_ok
  | a :: l, b, h => by
    simp only [foldE]
    cases hf : f b a with
    | error e =>
      exact error_ne_fuelOut (err_of_ne_fuelOut (hf ▸ h b a (by simp)))
    | ok b' =>
      exact foldE_nofuel (fun b'' a' ha' => h b'' a' (List.mem_cons_of_mem _ ha'))

theorem mapE_nofuel {α β : Type} {f : α → Except Err β} :
    ∀ {l : List α}, (∀ a ∈ l, f a ≠ .error .fuelOut) →
      mapE f l ≠ .error .fuelOut
  | [], _ => ne_fuelOut_of_ok
  | a :: l, h => by
    simp only [mapE]
    cases hf : f a with
    | error e =>
      exact error_ne_fuelOut (err_of_ne_fuelOut (hf ▸ h a (by simp)))
    | ok b =>
      cases hm : mapE f l with
      | error e =>
        exact error_ne_fuelOut
          (err_of_ne_fuelOut
            (hm ▸ mapE_nofuel (fun a' ha' => h a' (List.mem_cons_of_mem _ ha'))))
      | ok bs => exact ne_fuelOut_of_ok

theorem look_nofuel (em : EventMap) (eid : EventId) :
    look em eid ≠ .error .fuelOut := by
  unfold look
  cases lookupA em eid with
  | some ev => exact ne_fuelOut_of_ok
  | none => exact error_ne_fuelOut (by intro hc; cases hc)

theorem int_of_nofuel (v : PValue) : int_of v ≠ .error .fuelOut := by
  cases v with
  | int n => exact ne_fuelOut_of_ok
  | str s =>
    simp only [int_of]
    cases pyInt? s with
    | some n => exact ne_fuelOut_of_ok
    | none => exact error_ne_fuelOut (by intro hc; cases hc)
  | null => exact error_ne_fuelOut (by intro hc; cases hc)

theorem findPLParent_nofuel (em : EventMap) :
    ∀ (ids : List EventId), findPLParent em ids ≠ .error .fuelOut
  | [] => ne_fuelOut_of_ok
  | aid :: rest => by
    simp only [findPLParent]
    cases hl : look em aid with
    | error e =>
      exact error_ne_fuelOut (err_of_ne_fuelOut (hl ▸ look_nofuel em aid))
    | ok aev =>
      dsimp only
      by_cases hk : (aev.type, aev.state_key) = (EventTypes.PowerLevels, "")
      · rw [if_pos hk]
        exact ne_fuelOut_of_ok
      · rw [if_neg hk]
        exact findPLParent_nofuel em rest

theorem findCreateParent_nofuel (em : EventMap) :
    ∀ (ids : List EventId), findCreateParent em ids ≠ .error .fuelOut
  | [] => ne_fuelOut_of_ok
  | aid :: rest => by
    simp only [findCreateParent]
    cases hl : look em aid with
    | error e =>
      exact error_ne_fuelOut (err_of_ne_fuelOut (hl ▸ look_nofuel em aid))
    | ok aev =>
      dsimp only
      by_cases hk : (aev.type, aev.state_key) = (EventTypes.Create, "")
      · rw [if_pos hk]
        exact ne_fuelOut_of_ok
      · rw [if_neg hk]
        exact findCreateParent_nofuel em rest

theorem get_power_level_for_sender_nofuel (em : EventMap) (eid : EventId) :
    get_power_level_for_sender em eid ≠ .error .fuelOut := by
  unfold get_power_level_for_sender
  cases hl : look em eid with
  | error e => exact error_ne_fuelOut (err_of_ne_fuelOut (hl ▸ look_nofuel em eid))
  | ok event =>
    dsimp only
    cases hp : findPLParent em event.auth_events with
    | error e =>
      exact error_ne_fuelOut
        (err_of_ne_fuelOut (hp ▸ findPLParent_nofuel em event.auth_events))
    | ok o =>
      cases o with
      | none =>
        dsimp only
        cases hc : findCreateParent em event.auth_events with
        | error e =>
          exact error_ne_fuelOut
            (err_of_ne_fuelOut (hc ▸ findCreateParent_nofuel em event.auth_events))
        | ok oc =>
          cases oc with
          | none => exact ne_fuelOut_of_ok
          | some p =>
            dsimp only
            by_cases hcr : p.2.content.creator = some event.sender
            · rw [if_pos hcr]; exact ne_fuelOut_of_ok
            · rw [if_neg hcr]; exact ne_fuelOut_of_ok
      | some p =>
        dsimp only
        cases hlv : (match lookupA p.2.content.users event.sender with
          | none => p.2.content.users_default.getD (.int 0)
          | some .null => p.2.content.users_default.getD (.int 0)
          | some v => v : PValue) with
        | null => exact ne_fuelOut_of_ok
        | int n => exact int_of_nofuel _
        | str s => exact int_of_nofuel _

theorem get_power_order_nofuel (em : EventMap) (eid : EventId) :
    get_power_order em eid ≠ .error .fuelOut := by
  unfold get_power_order
  cases hl : look em eid with
  | error e => exact error_ne_fuelOut (err_of_ne_fuelOut (hl ▸ look_nofuel em eid))
  | ok ev =>
    dsimp only
    cases hp : get_power_level_for_sender em eid with
    | error e =>
      exact error_ne_fuelOut
        (err_of_ne_fuelOut (hp ▸ get_power_level_for_sender_nofuel em eid))
    | ok pl => exact ne_fuelOut_of_ok

theorem apply_overrides_nofuel (em : EventMap) (ov : StateMap)
    (t : List (StateKey × Event)) : apply_overrides em ov t ≠ .error .fuelOut := by
  unfold apply_overrides
  apply foldE_nofuel
  intro t' kv _
  cases hl : look em kv.2 with
  | error e => exact error_ne_fuelOut (err_of_ne_fuelOut (hl ▸ look_nofuel em kv.2))
  | ok oev => exact ne_fuelOut_of_ok

theorem build_auth_events_nofuel (em : EventMap) (ids : List EventId)
    (ov : StateMap) : build_auth_events em ids ov ≠ .error .fuelOut := by
  unfold build_auth_events
  apply foldE_nofuel
  intro table aid _
  unfold build_auth_step
  cases hl : look em aid with
  | error e => exact error_ne_fuelOut (err_of_ne_fuelOut (hl ▸ look_nofuel em aid))
  | ok aev => exact apply_overrides_nofuel em ov _

theorem auth_pass_nofuel (check : Event → List (StateKey × Event) → Bool)
    (em : EventMap) :
    ∀ (ids : List EventId) (ov : StateMap) (auth : List (EventId × Bool)),
      auth_pass check em ids ov auth ≠ .error .fuelOut
  | [], _, _ => ne_fuelOut_of_ok
  | eid :: rest, ov, auth => by
    simp only [auth_pass]
    cases hl : look em eid with
    | error e => exact error_ne_fuelOut (err_of_ne_fuelOut (hl ▸ look_nofuel em eid))
    | ok event =>
      dsimp only
      cases hb : build_auth_events em event.auth_events ov with
      | error e =>
        exact error_ne_fuelOut
          (err_of_ne_fuelOut (hb ▸ build_auth_events_nofuel em event.auth_events ov))
      | ok table => exact auth_pass_nofuel check em rest _ _

theorem lex_topo_go_nofuel (edges : List (EventId × EventId)) :
    ∀ (fuel : Nat) (l : List (EventId × (Int × Int × EventId))),
      l.length ≤ fuel → lex_topo_go edges fuel l ≠ .error .fuelOut := by
  intro fuel
  induction fuel with
  | zero =>
    intro l hl
    cases l with
    | nil => exact ne_fuelOut_of_ok
    | cons n ns => simp at hl
  | succ fuel ih =>
    intro l hl
    cases l with
    | nil => exact ne_fuelOut_of_ok
    | cons n ns =>
      simp only [lex_topo_go]
      cases hc : (n :: ns).filter
          (fun nk => !(edges.any (fun e => decide (e.2 = nk.1) &&
            (n :: ns).any (fun m => decide (m.1 = e.1))))) with
      | nil => exact error_ne_fuelOut (by intro h; cases h)
      | cons c cs =>
        dsimp only
        have hmem : pick_min c cs ∈ n :: ns := by
          have h1 : pick_min c cs ∈ c :: cs := pick_min_mem cs c
          rw [← hc] at h1
          exact List.mem_of_mem_filter h1
        have herase : ((n :: ns).erase (pick_min c cs)).length ≤ fuel := by
          rw [List.length_erase_of_mem hmem]
          simp only [List.length_cons] at hl ⊢
          omega
        cases hr : lex_topo_go edges fuel ((n :: ns).erase (pick_min c cs)) with
        | error e =>
          exact error_ne_fuelOut (err_of_ne_fuelOut (hr ▸ ih _ herase))
        | ok tail => exact ne_fuelOut_of_ok

theorem lexicographical_topological_sort_nofuel (em : EventMap) (g : PGraph) :
    lexicographical_topological_sort em g ≠ .error .fuelOut := by
  unfold lexicographical_topological_sort
  cases hm : mapE
      (fun n =>
        match get_power_order em n with
        | .error e => .error e
        | .ok k => .ok (n, k))
      g.nodes with
  | error e =>
    refine error_ne_fuelOut (err_of_ne_fuelOut (hm ▸ mapE_nofuel ?_))
    intro n _
    cases hk : get_power_order em n with
    | error e' =>
      exact error_ne_fuelOut (err_of_ne_fuelOut (hk ▸ get_power_order_nofuel em n))
    | ok k => exact ne_fuelOut_of_ok
  | ok keyed => exact lex_topo_go_nofuel g.edges keyed.length keyed (le_refl _)

theorem look_ok_iff {em : EventMap} {a : EventId} {ev : Event} :
    look em a = .ok ev ↔ lookupA em a = some ev := by
  unfold look
  cases lookupA em a with
  | some ev' =>
    constructor
    · intro h; injection h with h'; rw [h']
    · intro h; injection h with h'; rw [h']
  | none =>
    constructor
    · intro h; cases h
    · intro h; cases h

/-- A step function whose successes extend their input makes `foldE`
extend its initial value. -/
theorem foldE_extend {α : Type} {f : List EventId → α → Except Err (List EventId)}
    (hf : ∀ b a b', f b a = .ok b' → ∃ t, b' = b ++ t) :
    ∀ (l : List α) (b b' : List EventId), foldE f b l = .ok b' → ∃ t, b' = b ++ t
  | [], b, b', h => by cases h; exact ⟨[], by simp⟩
  | a :: l, b, b', h => by
    simp only [foldE] at h
    cases hf1 : f b a with
    | error e => rw [hf1] at h; cases h
    | ok b1 =>
      rw [hf1] at h
      obtain ⟨t1, ht1⟩ := hf b a b1 hf1
      obtain ⟨t2, ht2⟩ := foldE_extend hf l b1 b' h
      exact ⟨t1 ++ t2, by rw [ht2, ht1, List.append_assoc]⟩

/-- A step-preserved invariant is a `foldE` invariant. -/
theorem foldE_pres {α β : Type} {P : β → Prop} {f : β → α → Except Err β}
    (hf : ∀ b a b', P b → f b a = .ok b' → P b') :
    ∀ (l : List α) (b b' : β), P b → foldE f b l = .ok b' → P b'
  | [], b, b', hb, h => by cases h; exact hb
  | a :: l, b, b', hb, h => by
    simp only [foldE] at h
    cases hf1 : f b a with
    | error e => rw [hf1] at h; cases h
    | ok b1 =>
      rw [hf1] at h
      exact foldE_pres hf l b1 b' (hf b a b1 hb hf1) h

theorem addNew_extend :
    ∀ (l acc : List EventId),
      ∃ t, l.foldl (fun a x => if x ∈ a then a else a ++ [x]) acc = acc ++ t
  | [], acc => ⟨[], by simp⟩
  | x :: l, acc => by
    simp only [List.foldl_cons]
    by_cases hx : x ∈ acc
    · rw [if_pos hx]
      exact addNew_extend l acc
    · rw [if_neg hx]
      obtain ⟨t, ht⟩ := addNew_extend l (acc ++ [x])
      exact ⟨[x] ++ t, by rw [ht, List.append_assoc]⟩

theorem addNew_nodup :
    ∀ (l acc : List EventId), acc.Nodup →
      (l.foldl (fun a x => if x ∈ a then a else a ++ [x]) acc).Nodup
  | [], _, h => h
  | x :: l, acc, h => by
    simp only [List.foldl_cons]
    by_cases hx : x ∈ acc
    · rw [if_pos hx]
      exact addNew_nodup l acc h
    · rw [if_neg hx]
      refine addNew_nodup l (acc ++ [x]) ?_
      rw [List.nodup_append]
      exact ⟨h, List.nodup_singleton x,
        fun a ha hax => hx (by rw [List.mem_singleton.1 hax] at ha; exact ha)⟩

theorem closure_round_nofuel (em : EventMap) (s : List EventId) :
    closure_round em s ≠ .error .fuelOut := by
  unfold closure_round
  apply foldE_nofuel
  intro acc aid _
  cases hl : look em aid with
  | error e => exact error_ne_fuelOut (err_of_ne_fuelOut (hl ▸ look_nofuel em aid))
  | ok ev => exact ne_fuelOut_of_ok

theorem closure_round_extend {em : EventMap} {s s' : List EventId}
    (h : closure_round em s = .ok s') : ∃ t, s' = s ++ t := by
  refine foldE_extend ?_ s s s' h
  intro b a b' hstep
  cases hl : look em a with
  | error e => rw [hl] at hstep; cases hstep
  | ok ev =>
    rw [hl] at hstep
    injection hstep with h'
    rw [← h']
    exact addNew_extend ev.auth_events b

theorem closure_round_nodup {em : EventMap} {s s' : List EventId}
    (hnd : s.Nodup) (h : closure_round em s = .ok s') : s'.Nodup := by
  refine foldE_pres ?_ s s s' hnd h
  intro b a b' hb hstep
  cases hl : look em a with
  | error e => rw [hl] at hstep; cases hstep
  | ok ev =>
    rw [hl] at hstep
    injection hstep with h'
    rw [← h']
    exact addNew_nodup ev.auth_events b hb

/-- Every element iterated by a successful closure round resolves in the
event map. -/
theorem closure_round_iter_keys (em : EventMap) :
    ∀ (l : List EventId) (acc s' : List EventId),
      foldE
        (fun acc aid =>
          match look em aid with
          | .error e => .error e
          | .ok ev =>
            .ok (ev.auth_events.foldl (fun a x => if x ∈ a then a else a ++ [x]) acc))
        acc l = .ok s' →
      ∀ x ∈ l, x ∈ em.map Prod.fst
  | [], _, _, _, x, hx => by cases hx
  | a :: l, acc, s', h, x, hx => by
    simp only [foldE] at h
    cases hl : look em a with
    | error e => rw [hl] at h; cases h
    | ok ev =>
      rw [hl] at h
      rcases List.mem_cons.1 hx with rfl | hm
      · exact mem_keys_of_lookupA em x ev (look_ok_iff.1 hl)
      · exact closure_round_iter_keys em l _ s' h x hm

theorem closure_round_mem_keys {em : EventMap} {s s' : List EventId}
    (h : closure_round em s = .ok s') : ∀ x ∈ s, x ∈ em.map Prod.fst :=
  closure_round_iter_keys em s s s' h

/-- A duplicate-free list of resolvable ids is no longer than the event
map's key count. -/
theorem nodup_subset_length {s : List EventId} {em : EventMap}
    (hnd : s.Nodup) (hsub : ∀ x ∈ s, x ∈ em.map Prod.fst) :
    s.length ≤ ((em.map Prod.fst).dedup).length :=
  (hnd.subperm (fun x hx => List.mem_dedup.2 (hsub x hx))).length_le

theorem auth_chain_closure_nofuel (em : EventMap) :
    ∀ (fuel : Nat) (s : List EventId), s.Nodup → 1 ≤ fuel →
      ((∀ x ∈ s, x ∈ em.map Prod.fst) →
        ((em.map Prod.fst).dedup).length + 2 ≤ fuel + s.length) →
      auth_chain_closure em fuel s ≠ .error .fuelOut := by
  intro fuel
  induction fuel with
  | zero => intro s _ h1 _; omega
  | succ fuel ih =>
    intro s hnd _ himp
    simp only [auth_chain_closure]
    cases hr : closure_round em s with
    | error e =>
      exact error_ne_fuelOut (err_of_ne_fuelOut (hr ▸ closure_round_nofuel em s))
    | ok s' =>
      dsimp only
      by_cases hlen : s'.length = s.length
      · rw [if_pos hlen]
        exact ne_fuelOut_of_ok
      · rw [if_neg hlen]
        have hsub : ∀ x ∈ s, x ∈ em.map Prod.fst := closure_round_mem_keys hr
        have hKs : ((em.map Prod.fst).dedup).length + 2 ≤ (fuel + 1) + s.length :=
          himp hsub
        have hsK : s.length ≤ ((em.map Prod.fst).dedup).length :=
          nodup_subset_length hnd hsub
        obtain ⟨t, ht⟩ := closure_round_extend hr
        have hgrow : s.length + 1 ≤ s'.length := by
          rw [ht]
          cases t with
          | nil => exact absurd (by rw [ht]; simp) hlen
          | cons a t' => simp
        refine ih s' (closure_round_nodup hnd hr) (by omega) ?_
        intro _
        omega

/-- A successful closure output resolves entirely in the event map. -/
theorem closure_ok_subset (em : EventMap) :
    ∀ (fuel : Nat) (s r : List EventId),
      auth_chain_closure em fuel s = .ok r → ∀ x ∈ r, x ∈ em.map Prod.fst := by
  intro fuel
  induction fuel with
  | zero => intro s r h; cases h
  | succ fuel ih =>
    intro s r h
    simp only [auth_chain_closure] at h
    cases hr : closure_round em s with
    | error e => rw [hr] at h; cases h
    | ok s' =>
      rw [hr] at h
      dsimp only at h
      by_cases hlen : s'.length = s.length
      · rw [if_pos hlen] at h
        injection h with h'
        subst h'
        obtain ⟨t, ht⟩ := closure_round_extend hr
        have ht' : t = [] := by
          rw [ht] at hlen
          simp at hlen
          exact hlen
        rw [ht, ht', List.append_nil]
        exact closure_round_mem_keys hr
      · rw [if_neg hlen] at h
        exact ih s' r h

/-- The auth-chain difference never exhausts fuel when the fuel covers the
event-map size. -/
theorem get_auth_chain_difference_nofuel (ss : List StateMap) (em : EventMap)
    (fuel : Nat) (hfuel : ((em.map Prod.fst).dedup).length + 2 ≤ fuel) :
    get_auth_chain_difference ss em fuel ≠ .error .fuelOut := by
  unfold get_auth_chain_difference
  cases hm : mapE (fun s => auth_chain_closure em fuel (seedIds s)) ss with
  | error e =>
    refine error_ne_fuelOut (err_of_ne_fuelOut (hm ▸ mapE_nofuel ?_))
    intro s _
    refine auth_chain_closure_nofuel em fuel (seedIds s) ?_ (by omega) ?_
    · exact ((List.perm_insertionSort strLe _).nodup_iff).2 (List.nodup_dedup _)
    · intro _
      omega
  | ok l =>
    cases l with
    | nil => exact error_ne_fuelOut (by intro h; cases h)
    | cons s0 rest => exact ne_fuelOut_of_ok

theorem mem_canonIds_iff {l : List EventId} {x : EventId} :
    x ∈ canonIds l ↔ x ∈ l := by
  unfold canonIds
  rw [(List.perm_insertionSort strLe l.dedup).mem_iff, List.mem_dedup]

theorem canonIds_nodup (l : List EventId) : (canonIds l).Nodup :=
  ((List.perm_insertionSort strLe l.dedup).nodup_iff).2 (List.nodup_dedup l)

/-- Every member of a successful `mapE` output is the image of a member of
the input. -/
theorem mapE_ok_mem {α β : Type} {f : α → Except Err β} :
    ∀ {l : List α} {r : List β}, mapE f l = .ok r →
      ∀ x ∈ r, ∃ a ∈ l, f a = .ok x
  | [], r, h, x, hx => by cases h; cases hx
  | a :: l, r, h, x, hx => by
    simp only [mapE] at h
    cases hfa : f a with
    | error e => rw [hfa] at h; cases h
    | ok b =>
      rw [hfa] at h
      dsimp only at h
      cases hml : mapE f l with
      | error e => rw [hml] at h; cases h
      | ok bs =>
        rw [hml] at h
        injection h with h'
        subst h'
        rcases List.mem_cons.1 hx with rfl | hm
        · exact ⟨a, by simp, hfa⟩
        · obtain ⟨a', ha', hfa'⟩ := mapE_ok_mem hml x hm
          exact ⟨a', List.mem_cons_of_mem _ ha', hfa'⟩

/-- The auth-chain difference is duplicate-free. -/
theorem diff_ok_nodup {ss : List StateMap} {em : EventMap} {fuel : Nat}
    {d : List EventId} (h : get_auth_chain_difference ss em fuel = .ok d) :
    d.Nodup := by
  unfold get_auth_chain_difference at h
  cases hm : mapE (fun s => auth_chain_closure em fuel (seedIds s)) ss with
  | error e => rw [hm] at h; cases h
  | ok l =>
    rw [hm] at h
    cases l with
    | nil => cases h
    | cons s0 rest =>
      dsimp only at h
      injection h with h'
      subst h'
      exact (canonIds_nodup _).filter _

/-- The auth-chain difference resolves entirely in the event map. -/
theorem diff_ok_subset {ss : List StateMap} {em : EventMap} {fuel : Nat}
    {d : List EventId} (h : get_auth_chain_difference ss em fuel = .ok d) :
    ∀ x ∈ d, x ∈ em.map Prod.fst := by
  unfold get_auth_chain_difference at h
  cases hm : mapE (fun s => auth_chain_closure em fuel (seedIds s)) ss with
  | error e => rw [hm] at h; cases h
  | ok l =>
    rw [hm] at h
    cases l with
    | nil => cases h
    | cons s0 rest =>
      dsimp only at h
      injection h with h'
      subst h'
      intro x hx
      have hx1 : x ∈ canonIds ((s0 :: rest).flatten) := List.mem_of_mem_filter hx
      have hx2 : x ∈ (s0 :: rest).flatten := mem_canonIds_iff.1 hx1
      obtain ⟨set, hset, hxset⟩ := List.mem_flatten.1 hx2
      obtain ⟨s, hs, hfs⟩ := mapE_ok_mem hm set hset
      exact closure_ok_subset em fuel (seedIds s) set hfs x hxset

theorem filter_mono_len {n n' : List EventId} (hmono : ∀ x ∈ n, x ∈ n') :
    ∀ (l : List EventId),
      (l.filter (fun x => decide (x ∉ n'))).length ≤
        (l.filter (fun x => decide (x ∉ n))).length
  | [] => le_refl _
  | d :: l => by
    simp only [List.filter_cons]
    by_cases hd' : d ∈ n'
    · rw [if_neg (by simp [hd'])]
      by_cases hd : d ∈ n
      · rw [if_neg (by simp [hd])]
        exact filter_mono_len hmono l
      · rw [if_pos (by simp [hd])]
        exact le_trans (filter_mono_len hmono l) (by simp)
    · have hd : d ∉ n := fun hc => hd' (hmono d hc)
      rw [if_pos (by simp [hd']), if_pos (by simp [hd])]
      simpa using filter_mono_len hmono l

theorem filter_remove {aid : EventId} {n n' : List EventId}
    (hmono : ∀ x ∈ n, x ∈ n') (haid' : aid ∈ n') (haidn : aid ∉ n) :
    ∀ (l : List EventId), l.Nodup → aid ∈ l →
      (l.filter (fun x => decide (x ∉ n'))).length + 1 ≤
        (l.filter (fun x => decide (x ∉ n))).length
  | [], _, hm => by cases hm
  | d :: l, hnd, hm => by
    obtain ⟨hdl, hnd'⟩ := List.nodup_cons.1 hnd
    simp only [List.filter_cons]
    by_cases hda : d = aid
    · subst hda
      rw [if_neg (by simp [haid']), if_pos (by simp [haidn])]
      have := filter_mono_len hmono l
      simp only [List.length_cons]
      omega
    · have hml : aid ∈ l := by
        rcases List.mem_cons.1 hm with he | hml
        · exact absurd he.symm hda
        · exact hml
      have ih := filter_remove hmono haid' haidn l hnd' hml
      by_cases hd' : d ∈ n'
      · rw [if_neg (by simp [hd'])]
        by_cases hd : d ∈ n
        · rw [if_neg (by simp [hd])]
          exact ih
        · rw [if_pos (by simp [hd])]
          simp only [List.length_cons]
          omega
      · have hd : d ∉ n := fun hc => hd' (hmono d hc)
        rw [if_pos (by simp [hd']), if_pos (by simp [hd])]
        simp only [List.length_cons]
        omega

theorem addNode_nodes_mono {g : PGraph} {n x : EventId} (h : x ∈ g.nodes) :
    x ∈ (g.addNode n).nodes := by
  unfold PGraph.addNode
  by_cases hn : n ∈ g.nodes
  · rw [if_pos hn]; exact h
  · rw [if_neg hn]; exact List.mem_append_left _ h

theorem addNode_nodes_self (g : PGraph) (n : EventId) : n ∈ (g.addNode n).nodes := by
  unfold PGraph.addNode
  by_cases hn : n ∈ g.nodes
  · rw [if_pos hn]; exact hn
  · rw [if_neg hn]; exact List.mem_append_right _ (by simp)

theorem addEdge_nodes_eq (g : PGraph) (u v : EventId) :
    (g.addEdge u v).nodes = ((g.addNode u).addNode v).nodes := by
  unfold PGraph.addEdge
  by_cases he : (u, v) ∈ ((g.addNode u).addNode v).edges
  · rw [if_pos he]
  · rw [if_neg he]

theorem addEdge_nodes_mono {g : PGraph} {u v x : EventId} (h : x ∈ g.nodes) :
    x ∈ (g.addEdge u v).nodes := by
  rw [addEdge_nodes_eq]
  exact addNode_nodes_mono (addNode_nodes_mono h)

theorem addEdge_nodes_right (g : PGraph) (u v : EventId) :
    v ∈ (g.addEdge u v).nodes := by
  rw [addEdge_nodes_eq]
  exact addNode_nodes_self _ v

/-- The per-event parent scan can only shrink the count of diff members
missing from the graph, by one per pushed id. -/
theorem graph_fold_invariant (diff : List EventId) (hnd : diff.Nodup)
    (eid : EventId) :
    ∀ (l : List EventId) (g : PGraph) (pushed : List EventId),
      (diff.filter (fun x => decide (x ∉
        (l.foldl
          (fun gp aid =>
            if aid ∈ diff ∧ aid ∉ gp.1.nodes then (gp.1.addEdge eid aid, aid :: gp.2)
            else gp)
          (g, pushed)).1.nodes))).length +
        (l.foldl
          (fun gp aid =>
            if aid ∈ diff ∧ aid ∉ gp.1.nodes then (gp.1.addEdge eid aid, aid :: gp.2)
            else gp)
          (g, pushed)).2.length ≤
      (diff.filter (fun x => decide (x ∉ g.nodes))).length + pushed.length
  | [], g, pushed => le_refl _
  | aid :: l, g, pushed => by
    simp only [List.foldl_cons]
    by_cases hc : aid ∈ diff ∧ aid ∉ g.nodes
    · rw [if_pos hc]
      have hstep :
          (diff.filter (fun x => decide (x ∉ (g.addEdge eid aid).nodes))).length + 1 ≤
            (diff.filter (fun x => decide (x ∉ g.nodes))).length :=
        filter_remove (fun x hx => addEdge_nodes_mono hx)
          (addEdge_nodes_right g eid aid) hc.2 diff hnd hc.1
      have ih := graph_fold_invariant diff hnd eid l (g.addEdge eid aid) (aid :: pushed)
      simp only [List.length_cons] at ih ⊢
      omega
    · rw [if_neg hc]
      exact graph_fold_invariant diff hnd eid l g pushed

theorem graph_walk_nofuel (em : EventMap) (diff : List EventId)
    (hnd : diff.Nodup) (event_id : EventId) :
    ∀ (fuel : Nat) (g : PGraph) (stack : List EventId),
      stack.length + (diff.filter (fun x => decide (x ∉ g.nodes))).length + 1 ≤ fuel →
      graph_walk em diff event_id fuel g stack ≠ .error .fuelOut := by
  intro fuel
  induction fuel with
  | zero =>
    intro g stack hle
    cases stack with
    | nil => exact ne_fuelOut_of_ok
    | cons eid rest => omega
  | succ fuel ih =>
    intro g stack hle
    cases stack with
    | nil => exact ne_fuelOut_of_ok
    | cons eid rest =>
      simp only [graph_walk]
      cases hl : look em event_id with
      | error e =>
        exact error_ne_fuelOut (err_of_ne_fuelOut (hl ▸ look_nofuel em event_id))
      | ok ev =>
        dsimp only
        have hinv := graph_fold_invariant diff hnd eid ev.auth_events g []
        refine ih _ _ ?_
        simp only [List.length_nil] at hinv
        simp only [List.length_append, List.length_cons] at hle ⊢
        omega

theorem add_event_and_auth_chain_to_graph_nofuel (g : PGraph)
    (event_id : EventId) (em : EventMap) (diff : List EventId)
    (hnd : diff.Nodup) (fuel : Nat) (hfuel : diff.length + 2 ≤ fuel) :
    add_event_and_auth_chain_to_graph g event_id em diff fuel ≠ .error .fuelOut := by
  unfold add_event_and_auth_chain_to_graph
  refine graph_walk_nofuel em diff hnd event_id fuel _ [event_id] ?_
  have hfl := List.length_filter_le (fun x => decide (x ∉ (g.addNode event_id).nodes)) diff
  simp only [List.length_cons, List.length_nil]
  omega

theorem build_power_graph_nofuel (em : EventMap) (diff : List EventId)
    (confList : List EventId) (fuel : Nat) (hnd : diff.Nodup)
    (hfuel : diff.length + 2 ≤ fuel) :
    build_power_graph em diff confList fuel ≠ .error .fuelOut := by
  unfold build_power_graph
  apply foldE_nofuel
  intro g eid _
  cases hl : look em eid with
  | error e => exact error_ne_fuelOut (err_of_ne_fuelOut (hl ▸ look_nofuel em eid))
  | ok ev =>
    dsimp only
    by_cases hp : is_power_event ev
    · rw [if_pos hp]
      exact add_event_and_auth_chain_to_graph_nofuel g eid em diff hnd fuel hfuel
    · rw [if_neg hp]
      exact ne_fuelOut_of_ok

theorem sorted_power_from_parts_nofuel (shuffle : List EventId → List EventId)
    (em : EventMap) (fuel : Nat) (conflicted : List (StateKey × List EventId))
    (diff : List EventId) (hnd : diff.Nodup) (hfuel : diff.length + 2 ≤ fuel) :
    sorted_power_from_parts shuffle em fuel conflicted diff ≠ .error .fuelOut := by
  unfold sorted_power_from_parts
  cases hg : build_power_graph em diff (shuffle (full_conflicted_list conflicted diff)) fuel with
  | error e =>
    exact error_ne_fuelOut
      (err_of_ne_fuelOut (hg ▸ build_power_graph_nofuel em diff _ fuel hnd hfuel))
  | ok g =>
    dsimp only
    cases ht : lexicographical_topological_sort em g with
    | error e =>
      exact error_ne_fuelOut
        (err_of_ne_fuelOut (ht ▸ lexicographical_topological_sort_nofuel em g))
    | ok topo => exact ne_fuelOut_of_ok

theorem lookupA_mem {κ β : Type} [DecidableEq κ] :
    ∀ (em : List (κ × β)) (k : κ) (v : β), lookupA em k = some v → (k, v) ∈ em
  | [], _, _, h => by cases h
  | (k0, v0) :: em, k, v, h => by
    simp only [lookupA] at h
    by_cases he : k0 = k
    · rw [if_pos he] at h
      injection h with h'
      subst he
      subst h'
      simp
    · rw [if_neg he] at h
      exact List.mem_cons_of_mem _ (lookupA_mem em k v h)

theorem findPLParent_mem {em : EventMap} :
    ∀ {ids : List EventId} {aid : EventId} {aev : Event},
      findPLParent em ids = .ok (some (aid, aev)) → aid ∈ ids := by
  intro ids
  induction ids with
  | nil => intro aid aev h; cases h
  | cons a rest ih =>
    intro aid aev h
    simp only [findPLParent] at h
    cases hl : look em a with
    | error e => rw [hl] at h; cases h
    | ok ev =>
      rw [hl] at h
      dsimp only at h
      by_cases hk : (ev.type, ev.state_key) = (EventTypes.PowerLevels, "")
      · rw [if_pos hk] at h
        injection h with h'
        injection h' with h''
        rw [Prod.mk.injEq] at h''
        simp [h''.1]
      · rw [if_neg hk] at h
        exact List.mem_cons_of_mem _ (ih h)

theorem mainline_walk_nofuel (em : EventMap) (rank : EventId → Nat)
    (hrank : ∀ pr ∈ em, ∀ aid ∈ pr.2.auth_events, rank aid < rank pr.1) :
    ∀ (fuel : Nat) (o : Option EventId) (acc : List EventId),
      (∀ pid, o = some pid →
        (1 ≤ fuel ∧ (pid ∈ em.map Prod.fst → rank pid < fuel))) →
      mainline_walk em fuel o acc ≠ .error .fuelOut := by
  intro fuel
  induction fuel with
  | zero =>
    intro o acc ho
    cases o with
    | none => exact ne_fuelOut_of_ok
    | some p => exact absurd (ho p rfl).1 (by omega)
  | succ fuel ih =>
    intro o acc ho
    cases o with
    | none => exact ne_fuelOut_of_ok
    | some p =>
      simp only [mainline_walk]
      by_cases hps : p = ""
      · rw [if_pos hps]
        exact ne_fuelOut_of_ok
      · rw [if_neg hps]
        cases hl : look em p with
        | error e =>
          exact error_ne_fuelOut (err_of_ne_fuelOut (hl ▸ look_nofuel em p))
        | ok ev =>
          dsimp only
          cases hfp : findPLParent em ev.auth_events with
          | error e =>
            exact error_ne_fuelOut
              (err_of_ne_fuelOut (hfp ▸ findPLParent_nofuel em ev.auth_events))
          | ok o' =>
            cases o' with
            | none => exact ne_fuelOut_of_ok
            | some pr =>
              obtain ⟨aid, aev⟩ := pr
              dsimp only
              have hpm : p ∈ em.map Prod.fst :=
                mem_keys_of_lookupA em p ev (look_ok_iff.1 hl)
              have hrp : rank p < fuel + 1 := (ho p rfl).2 hpm
              have haidmem : aid ∈ ev.auth_events := findPLParent_mem hfp
              have hra : rank aid < rank p :=
                hrank (p, ev) (lookupA_mem em p ev (look_ok_iff.1 hl)) aid haidmem
              refine ih (some aid) _ ?_
              intro pid hpid
              injection hpid with h'
              subst h'
              exact ⟨by omega, fun _ => by omega⟩

theorem get_mainline_depth_nofuel (mm : List (EventId × Nat)) (em : EventMap)
    (rank : EventId → Nat)
    (hrank : ∀ pr ∈ em, ∀ aid ∈ pr.2.auth_events, rank aid < rank pr.1) :
    ∀ (fuel : Nat) (eid : EventId), 1 ≤ fuel →
      (eid ∈ em.map Prod.fst → rank eid < fuel) →
      get_mainline_depth mm em fuel eid ≠ .error .fuelOut := by
  intro fuel
  induction fuel with
  | zero => intro eid h1 _; omega
  | succ fuel ih =>
    intro eid _ hre
    simp only [get_mainline_depth]
    cases hmm : lookupA mm eid with
    | some i => exact ne_fuelOut_of_ok
    | none =>
      dsimp only
      cases hl : look em eid with
      | error e =>
        exact error_ne_fuelOut (err_of_ne_fuelOut (hl ▸ look_nofuel em eid))
      | ok ev =>
        dsimp only
        cases hp : ev.auth_events with
        | nil => exact ne_fuelOut_of_ok
        | cons p ps =>
          have hem : eid ∈ em.map Prod.fst :=
            mem_keys_of_lookupA em eid ev (look_ok_iff.1 hl)
          have hre' : rank eid < fuel + 1 := hre hem
          refine foldE_nofuel ?_
          intro acc aid haid
          have hra : rank aid < rank eid := by
            refine hrank (eid, ev) (lookupA_mem em eid ev (look_ok_iff.1 hl)) aid ?_
            rw [hp]
            exact haid
          have hg : get_mainline_depth mm em fuel aid ≠ .error .fuelOut :=
            ih aid (by omega) (fun _ => by omega)
          cases hgd : get_mainline_depth mm em fuel aid with
          | error e => exact error_ne_fuelOut (err_of_ne_fuelOut (hgd ▸ hg))
          | ok d => exact ne_fuelOut_of_ok

/-- The tail of the resolver never exhausts fuel given a duplicate-free
auth diff and enough fuel for the diff size and the rank bound. -/
theorem resolver_rest_nofuel (check : Event → List (StateKey × Event) → Bool)
    (shuffle : List EventId → List EventId) (em : EventMap) (fuel : Nat)
    (unconflicted : StateMap) (conflicted : List (StateKey × List EventId))
    (diff : List EventId) (rank : EventId → Nat) (R : Nat)
    (hrank : ∀ pr ∈ em, ∀ aid ∈ pr.2.auth_events, rank aid < rank pr.1)
    (hR : ∀ pr ∈ em, rank pr.1 < R)
    (hnd : diff.Nodup)
    (hfd : diff.length + 2 ≤ fuel)
    (hfR : R + 1 ≤ fuel) :
    resolver_rest check shuffle em fuel unconflicted conflicted diff ≠
      .error .fuelOut := by
  unfold resolver_rest
  cases h1 : sorted_power_from_parts shuffle em fuel conflicted diff with
  | error e =>
    exact error_ne_fuelOut
      (err_of_ne_fuelOut (h1 ▸ sorted_power_from_parts_nofuel shuffle em fuel conflicted diff hnd hfd))
  | ok spe =>
    dsimp only
    cases h2 : auth_pass check em spe [] [] with
    | error e =>
      exact error_ne_fuelOut (err_of_ne_fuelOut (h2 ▸ auth_pass_nofuel check em spe [] []))
    | ok p1 =>
      obtain ⟨ov1, auth1⟩ := p1
      dsimp only
      have hrlt : ∀ pid, pid ∈ em.map Prod.fst → rank pid < fuel := by
        intro pid hpid
        obtain ⟨pr, hpr, hfst⟩ := List.mem_map.1 hpid
        have := hR pr hpr
        rw [hfst] at this
        omega
      cases h3 : mainline_walk em fuel
          (lookupA (dictUpdate (select_conflicts conflicted spe auth1 [])
            unconflicted) (EventTypes.PowerLevels, "")) [] with
      | error e =>
        refine error_ne_fuelOut (err_of_ne_fuelOut (h3 ▸ mainline_walk_nofuel em rank hrank fuel _ [] ?_))
        intro pid _
        exact ⟨by omega, hrlt pid⟩
      | ok mlrev =>
        dsimp only
        cases h4 : mapE
            (fun e =>
              match get_mainline_depth (mlrev.reverse.enum.map (fun p => (p.2, p.1 + 1)))
                  em fuel e with
              | .error er => .error er
              | .ok d => .ok (e, d))
            ((shuffle (full_conflicted_list conflicted diff)).filter
              (fun e => decide (e ∉ spe))) with
        | error e =>
          refine error_ne_fuelOut (err_of_ne_fuelOut (h4 ▸ mapE_nofuel ?_))
          intro a _
          have hg : get_mainline_depth
              (mlrev.reverse.enum.map (fun p => (p.2, p.1 + 1))) em fuel a ≠
              .error .fuelOut :=
            get_mainline_depth_nofuel _ em rank hrank fuel a (by omega) (hrlt a)
          cases hgd : get_mainline_depth
              (mlrev.reverse.enum.map (fun p => (p.2, p.1 + 1))) em fuel a with
          | error e' => exact error_ne_fuelOut (err_of_ne_fuelOut (hgd ▸ hg))
          | ok d => exact ne_fuelOut_of_ok
        | ok depths =>
          dsimp only
          cases h5 : auth_pass check em
              (sort_leftover_events depths
                ((shuffle (full_conflicted_list conflicted diff)).filter
                  (fun e => decide (e ∉ spe)))) ov1 auth1 with
          | error e =>
            exact error_ne_fuelOut
              (err_of_ne_fuelOut (h5 ▸ auth_pass_nofuel check em _ ov1 auth1))
          | ok p2 =>
            obtain ⟨ov2, auth2⟩ := p2
            exact ne_fuelOut_of_ok

/-- C10: whenever the auth-events relation has a rank function that
strictly decreases from each event (in the event map) to its cited auth
parents — the standard witness of acyclicity — and the fuel covers the
event-map size plus the rank bound, the embedded resolver never exhausts
its fuel: every loop of ts_mainline.py (the closure saturation, the graph
walk, the backwards mainline walk and the recursive depth computation)
terminates, possibly by raising a Python exception (modelled as a
non-fuel error), which is also termination. -/
theorem c10_resolver_terminates (check : Event → List (StateKey × Event) → Bool)
    (shuffle : List EventId → List EventId) (ss : List StateMap) (em : EventMap)
    (fuel : Nat) (rank : EventId → Nat) (R : Nat)
    (hrank : ∀ pr ∈ em, ∀ aid ∈ pr.2.auth_events, rank aid < rank pr.1)
    (hR : ∀ pr ∈ em, rank pr.1 < R)
    (hfuel : em.length + R + 2 ≤ fuel) :
    resolver check shuffle ss em fuel ≠ .error .fuelOut := by
  have hK : ((em.map Prod.fst).dedup).length ≤ em.length := by
    have h1 := (List.dedup_sublist (em.map Prod.fst)).length_le
    rw [List.length_map] at h1
    exact h1
  unfold resolver
  cases hd : get_auth_chain_difference ss em fuel with
  | error e =>
    refine error_ne_fuelOut (err_of_ne_fuelOut (hd ▸ get_auth_chain_difference_nofuel ss em fuel ?_))
    omega
  | ok d =>
    dsimp only
    have hnd : d.Nodup := diff_ok_nodup hd
    have hdlen : d.length ≤ ((em.map Prod.fst).dedup).length :=
      nodup_subset_length hnd (diff_ok_subset hd)
    exact resolver_rest_nofuel check shuffle em fuel _ _ d rank R hrank hR hnd
      (by omega) (by omega)

/-- Rank function witnessing acyclicity of the concrete event map
`emC7` ("B" cites "A"). -/
def rankC10 : EventId → Nat := fun e => if e = "B" then 1 else 0

/-- Witness for `c10_resolver_terminates` at a concrete input. -/
theorem c10_resolver_terminates_witness :
    resolver checkTrue shuffleId ssC7 emC7 20 ≠ .error .fuelOut :=
  c10_resolver_terminates checkTrue shuffleId ssC7 emC7 20 rankC10 2
    (by decide) (by decide) (by decide)

end StateRes
